import Mathlib

/-!
Verification of the maze generator in `src/generador/laberinto.py`
(repository `686f6c61/laberintos-python`).

The Python class `Laberinto` builds a `filas × columnas` grid of cells
(`matriz`, value `1` = wall, `0` = path) through five stages:
randomized DFS carving (`_generar`), dead-end injection
(`_agregar_complejidad` / `_crear_callejon`), cycle injection
(`_crear_ciclos`), endpoint selection (`_establecer_inicio_meta`) and a
connectivity check with an L-shaped repair
(`_garantizar_solucion` / `_crear_camino`).

Shallow embedding conventions:
* the matrix is a total function `Mat := ℤ × ℤ → Bool` (`true` = wall,
  i.e. value `1`); all Python writes are in-range so a total function is
  faithful;
* Python's global Mersenne-Twister stream is abstracted by two oracle
  streams, `g : Nat → Nat` (drives `randrange`, `shuffle`, `randint`)
  and `uq : Nat → ℚ` (drives `random.random()`), threaded through a
  draw counter.  `random.shuffle` is modelled by Fisher-Yates style
  extraction driven by `g`, so every permutation is reachable and the
  number of draws consumed is input independent, exactly like the
  Python stream;
* Python floats (`0.3`, `0.4`, `0.15`, complejidad, densidad) are
  modelled as rationals; `int(x)` is truncation toward zero;
* `random.randrange(lo, hi, 2)` raises `ValueError` on an empty range;
  this is the only failure of the whole constructor and is modelled
  with `Except Unit`;
* the recursive visited-set DFS of `_garantizar_solucion` only decides
  reachability of `meta` from `inicio` (its direction shuffles cannot
  change the decision, and nothing after it consumes the stream), so it
  is embedded as an executable breadth-first fixpoint `bfsReach`, which
  is proved equivalent to the reflexive-transitive closure of the
  one-cell step relation used by the Python search.
-/

/-- A cell position `(row, col)`, as in the Python `(fila, columna)` pairs. -/
abbrev Pos : Type := ℤ × ℤ

/-- The maze matrix: `true` encodes the value `1` (pared / wall),
`false` encodes `0` (camino / path). -/
abbrev Mat : Type := Pos → Bool

/-- Pointwise update of the matrix, `self.matriz[p] = b`. -/
def mset (m : Mat) (p : Pos) (b : Bool) : Mat :=
  fun q => if q = p then b else m q

/-- The all-wall matrix produced by `self.matriz.fill(1)`. -/
def allWalls : Mat := fun _ => true

/-- The direction list `direcciones = [(-2, 0), (0, 2), (2, 0), (0, -2)]`. -/
def direcciones : List (ℤ × ℤ) := [(-2, 0), (0, 2), (2, 0), (0, -2)]

/-- Python `range(lo, hi)` as a list of integers. -/
def pyRange (lo hi : ℤ) : List ℤ :=
  (List.range (hi - lo).toNat).map (fun t : ℕ => lo + (t : ℤ))

/-- Python `range(lo, hi, 2)` as a list of integers. -/
def pyRangeStep2 (lo hi : ℤ) : List ℤ :=
  (List.range ((hi - lo + 1) / 2).toNat).map (fun t : ℕ => lo + 2 * (t : ℤ))

/-- Python `int(q)` on a rational: truncation toward zero. -/
def pyInt (q : ℚ) : ℤ := q.num.tdiv (q.den : ℤ)

/-- One Fisher-Yates extraction pass driven by the stream `g`: at each
step draw an index into the remaining list, move that element to the
front and continue with the rest.  The fuel argument is instantiated
with the list length at the wrapper, so the recursion is structural.
Models `random.shuffle`: it consumes exactly `l.length` draws and can
produce every permutation of `l`. -/
def pyShuffleGo {α : Type} (g : Nat → Nat) : Nat → Nat → List α → List α × Nat
  | k, 0, l => (l, k)
  | k, fuel + 1, l =>
    match l with
    | [] => ([], k)
    | x :: xs =>
      let j := g k % (xs.length + 1)
      let a := (x :: xs).getD j x
      let rest := (x :: xs).eraseIdx j
      let r := pyShuffleGo g (k + 1) fuel rest
      (a :: r.1, r.2)

/-- Model of `random.shuffle(l)`: run the extraction pass over the whole
list. -/
def pyShuffle {α : Type} (g : Nat → Nat) (k : Nat) (l : List α) : List α × Nat :=
  pyShuffleGo g k l.length l

/-- Model of `random.randrange(lo, hi, 2)`: raises on an empty range,
otherwise returns `lo + 2*(draw mod count)` and advances the counter. -/
def randrangeOdd (g : Nat → Nat) (k : Nat) (lo hi : ℤ) : Except Unit (ℤ × Nat) :=
  if hi ≤ lo then .error ()
  else .ok (lo + 2 * ((g k : ℤ) % ((hi - lo + 1) / 2)), k + 1)

/-- First element of `x :: xs` minimizing `f`, ties broken by the first
occurrence, exactly like Python `min(list, key=f)`. -/
def pyMinBy (f : Pos → ℤ) (x : Pos) (xs : List Pos) : Pos :=
  xs.foldl (fun b a => if f a < f b then a else b) x

/-- First element of `x :: xs` maximizing `f`, ties broken by the first
occurrence, exactly like Python `max(list, key=f)`. -/
def pyMaxBy (f : Pos → ℤ) (x : Pos) (xs : List Pos) : Pos :=
  xs.foldl (fun b a => if f b < f a then a else b) x

/-- The derived branch factor
`factor_ramificacion = min(0.3, self.complejidad * 0.4)`. -/
def factorRamificacion (complejidad : ℚ) : ℚ :=
  min (3 / 10) (complejidad * (4 / 10))

/-- The candidate budget
`num_bifurcaciones = int(len(bifurcaciones) * factor_ramificacion)`. -/
def numBifurcaciones (factor : ℚ) (len : ℕ) : ℤ :=
  pyInt ((len : ℚ) * factor)

/-- Number of branch candidates the loop of `_agregar_complejidad`
iterates over: `range(min(num_bifurcaciones, len(bifurcaciones)))`. -/
def processedCount (factor : ℚ) (len : ℕ) : ℕ :=
  (min (numBifurcaciones factor len) (len : ℤ)).toNat

/-- Strictly-inside-the-border bound check used by the carving stages:
`1 <= nx < self.filas - 1 and 1 <= ny < self.columnas - 1`. -/
def InteriorP (f c : ℤ) (p : Pos) : Prop :=
  1 ≤ p.1 ∧ p.1 < f - 1 ∧ 1 ≤ p.2 ∧ p.2 < c - 1

instance (f c : ℤ) (p : Pos) : Decidable (InteriorP f c p) := by
  unfold InteriorP; infer_instance

/-- Full-grid bound check used by `_garantizar_solucion`:
`0 <= nx < self.filas and 0 <= ny < self.columnas`. -/
def InBoundsP (f c : ℤ) (p : Pos) : Prop :=
  0 ≤ p.1 ∧ p.1 < f ∧ 0 ≤ p.2 ∧ p.2 < c

instance (f c : ℤ) (p : Pos) : Decidable (InBoundsP f c p) := by
  unfold InBoundsP; infer_instance

/-- A recorded neighbour `(nx, ny, wx, wy)` as appended to `vecinos` in
`_generar`: target cell plus the half-step wall offset. -/
abbrev Vec4 : Type := ℤ × ℤ × ℤ × ℤ

/-- A recorded branch point `(x, y, vecinos[1:])` from `bifurcaciones`. -/
abbrev Bif : Type := Pos × List Vec4

/-- The neighbour scan of `_generar`: walk the (shuffled) direction list
and keep the in-bounds unvisited cells two steps away, together with the
wall offsets `dx // 2, dy // 2`. -/
def vecinosOf (f c : ℤ) (vis : Finset Pos) (p : Pos) (ds : List (ℤ × ℤ)) : List Vec4 :=
  ds.filterMap fun d =>
    if InteriorP f c (p.1 + d.1, p.2 + d.2) ∧ (p.1 + d.1, p.2 + d.2) ∉ vis
    then some (p.1 + d.1, p.2 + d.2, d.1 / 2, d.2 / 2) else none

/-- State of the DFS carving loop of `_generar`: matrix, the (in-place
shuffled) direction list, the stack `pila`, the visited set, the
recorded `bifurcaciones` and the stream counter. -/
structure DState where
  m : Mat
  dirs : List (ℤ × ℤ)
  pila : List Pos
  vis : Finset Pos
  bifs : List Bif
  k : Nat

/-- One-to-one embedding of the `while pila:` loop of `_generar`,
with the stack top at the list head.  Each iteration shuffles the
direction list, scans for unvisited interior neighbours at distance 2,
records a branch point when more than one neighbour exists, carves the
connecting wall and the first neighbour and pushes it, or backtracks
when no neighbour remains.  The fuel is instantiated with `dfsFuel`
below, which is proved large enough for the stack to empty. -/
def dfsLoopF (g : Nat → Nat) (f c : ℤ) : Nat → DState → DState
  | 0, st => st
  | fuel + 1, st =>
    match st.pila with
    | [] => st
    | p :: rest =>
      let s := pyShuffle g st.k st.dirs
      match vecinosOf f c st.vis p s.1 with
      | [] =>
        dfsLoopF g f c fuel ⟨st.m, s.1, rest, st.vis, st.bifs, s.2⟩
      | v :: vtl =>
        let n : Pos := (v.1, v.2.1)
        let w : Pos := (p.1 + v.2.2.1, p.2 + v.2.2.2)
        let bifs' := if vtl = [] then st.bifs else st.bifs ++ [(p, vtl)]
        dfsLoopF g f c fuel
          ⟨mset (mset st.m w false) n false, s.1, n :: p :: rest,
            insert n st.vis, bifs', s.2⟩

/-- Fuel bound for the DFS loop: twice the number of interior cells plus
two.  `dfsLoop_pila_nil` below shows the loop's stack is empty within
this bound, i.e. the embedded loop runs to completion exactly like the
Python `while`. -/
def dfsFuel (f c : ℤ) : Nat := 2 * ((f - 2).toNat * (c - 2).toNat) + 2

/-- The carving prefix of `_generar`: fill with walls, pick the random
odd origin (`random.randrange(1, filas - 1, 2)` twice, which raises on
an empty range exactly when `filas < 3` or `columnas < 3`), mark it as
path and visited, and run the DFS loop. -/
def genDfs (g : Nat → Nat) (f c : ℤ) : Except Unit DState :=
  match randrangeOdd g 0 1 (f - 1) with
  | .error _ => .error ()
  | .ok (ox, k1) =>
    match randrangeOdd g k1 1 (c - 1) with
    | .error _ => .error ()
    | .ok (oy, k2) =>
      .ok (dfsLoopF g f c (dfsFuel f c)
        ⟨mset allWalls (ox, oy) false, direcciones, [(ox, oy)],
          {(ox, oy)}, [], k2⟩)

/-- Inner walk of `_crear_callejon`: the direction list was shuffled
once up front; at each of the (up to `longitud`) steps take the first
direction whose target is interior and unvisited, carve the wall and
the target, add the target to `visitadas` and continue from it; stop
as soon as no direction qualifies. -/
def crearCallejonGo (f c : ℤ) (ds : List (ℤ × ℤ)) :
    Nat → Mat → Pos → Finset Pos → Mat × Finset Pos
  | 0, m, _, vis => (m, vis)
  | len + 1, m, p, vis =>
    match ds.find? (fun d =>
        decide (InteriorP f c (p.1 + d.1, p.2 + d.2) ∧
          (p.1 + d.1, p.2 + d.2) ∉ vis)) with
    | none => (m, vis)
    | some d =>
      let n : Pos := (p.1 + d.1, p.2 + d.2)
      let w : Pos := (p.1 + d.1 / 2, p.2 + d.2 / 2)
      crearCallejonGo f c ds len (mset (mset m w false) n false) n (insert n vis)

/-- Embedding of `_crear_callejon(x, y, longitud, visitadas)`. -/
def crearCallejon (g : Nat → Nat) (k : Nat) (f c : ℤ) (p : Pos) (len : Nat)
    (m : Mat) (vis : Finset Pos) : Mat × Finset Pos × Nat :=
  let s := pyShuffle g k direcciones
  let r := crearCallejonGo f c s.1 len m p vis
  (r.1, r.2, s.2)

/-- Body of the `for` loop of `_agregar_complejidad` for one recorded
branch point: if it has recorded neighbours and the first one is still
unvisited, carve the wall and the neighbour and grow a dead end of
random length `random.randint(1, 3)` from it.  Note that, like the
Python code, the entry cell is *not* added to `visitadas`. -/
def procesarBif (g : Nat → Nat) (f c : ℤ) (st : Mat × Finset Pos × Nat)
    (b : Bif) : Mat × Finset Pos × Nat :=
  match b.2 with
  | [] => st
  | v :: _ =>
    if (v.1, v.2.1) ∈ st.2.1 then st
    else
      let w : Pos := (b.1.1 + v.2.2.1, b.1.2 + v.2.2.2)
      let m1 := mset (mset st.1 w false) (v.1, v.2.1) false
      let len := 1 + g st.2.2 % 3
      crearCallejon g (st.2.2 + 1) f c (v.1, v.2.1) len m1 st.2.1

/-- Embedding of `_agregar_complejidad`: shuffle `bifurcaciones`, take
the first `min(num_bifurcaciones, len(bifurcaciones))` of them and
process each in order. -/
def agregarComplejidad (g : Nat → Nat) (f c : ℤ) (k : Nat) (m : Mat)
    (vis : Finset Pos) (bifs : List Bif) (factor : ℚ) : Mat × Finset Pos × Nat :=
  let s := pyShuffle g k bifs
  (s.1.take (processedCount factor bifs.length)).foldl (procesarBif g f c) (m, vis, s.2)

/-- The interior even-lattice scan order of `_crear_ciclos`:
`for i in range(2, filas - 2, 2): for j in range(2, columnas - 2, 2)`. -/
def ciclosCells (f c : ℤ) : List Pos :=
  (pyRangeStep2 2 (f - 2)).flatMap fun i =>
    (pyRangeStep2 2 (c - 2)).map fun j => (i, j)

/-- Body of `_crear_ciclos` for one scanned cell: when the cell is a
wall whose two vertical or two horizontal neighbours are both path, a
uniform draw below the probability knocks it down (the draw is consumed
only when the wall qualifies, by Python's short-circuit `and`). -/
def ciclosPaso (uq : Nat → ℚ) (prob : ℚ) (st : Mat × Nat) (p : Pos) : Mat × Nat :=
  if st.1 p = true then
    if (st.1 (p.1 - 1, p.2) = false ∧ st.1 (p.1 + 1, p.2) = false) ∨
       (st.1 (p.1, p.2 - 1) = false ∧ st.1 (p.1, p.2 + 1) = false) then
      if uq st.2 < prob then (mset st.1 p false, st.2 + 1) else (st.1, st.2 + 1)
    else st
  else st

/-- Embedding of the wall-removal loop of `_crear_ciclos` (its trailing
calls to `_establecer_inicio_meta` and `_garantizar_solucion` are
sequenced at top level in `generar`; `visitadas` is an unused parameter
of the Python method and is dropped). -/
def crearCiclos (uq : Nat → ℚ) (f c : ℤ) (m : Mat) (k : Nat) (prob : ℚ) : Mat × Nat :=
  (ciclosCells f c).foldl (ciclosPaso uq prob) (m, k)

/-- The interior path-cell scan of `_establecer_inicio_meta`:
`for i in range(1, filas - 1): for j in range(1, columnas - 1):
if matriz[i, j] == 0: caminos.append((i, j))`. -/
def caminosOf (m : Mat) (f c : ℤ) : List Pos :=
  (pyRange 1 (f - 1)).flatMap fun i =>
    (pyRange 1 (c - 1)).filterMap fun j =>
      if m (i, j) = false then some (i, j) else none

/-- The start-candidate fallback chain of `_establecer_inicio_meta`:
top-left quadrant, else left half, else all path cells. -/
def elegirInicio (caminos : List Pos) (mf mc : ℤ) : List Pos :=
  let ci0 := caminos.filter fun q => decide (q.1 < mf ∧ q.2 < mc)
  let ci1 := if ci0 = [] then caminos.filter (fun q => decide (q.2 < mc)) else ci0
  if ci1 = [] then caminos else ci1

/-- The goal-candidate fallback chain of `_establecer_inicio_meta`:
bottom-right quadrant far from the start, else right half minus the
start, else everything minus the start. -/
def elegirMeta (caminos : List Pos) (f c mf mc : ℤ) (inicio : Pos) : List Pos :=
  let cm0 := caminos.filter fun q =>
    decide (mf ≤ q.1 ∧ mc ≤ q.2 ∧
      max f c / 2 < |q.1 - inicio.1| + |q.2 - inicio.2|)
  let cm1 := if cm0 = [] then
      caminos.filter (fun q => decide (mc ≤ q.2 ∧ q ≠ inicio)) else cm0
  if cm1 = [] then caminos.filter (fun q => decide (q ≠ inicio)) else cm1

/-- Embedding of `_establecer_inicio_meta`.  The `.error` branch
corresponds to Python `min([])` raising; it is provably unreachable
(`establecer_ok`).  All list filters, fallbacks, the first-minimal
`min(..., key=...)` and first-maximal `max(..., key=...)` choices and
the early returns follow the source line by line. -/
def establecer (f c : ℤ) (m : Mat) : Except Unit (Mat × Pos × Pos) :=
  match caminosOf m f c with
  | [] =>
    .ok (mset (mset m (1, 1) false) (f - 2, c - 2) false, (1, 1), (f - 2, c - 2))
  | p0 :: ps =>
    match elegirInicio (p0 :: ps) (f / 2) (c / 2) with
    | [] => .error ()
    | x :: xs =>
      let inicio := pyMinBy (fun q => q.1 + q.2) x xs
      match elegirMeta (p0 :: ps) f c (f / 2) (c / 2) inicio with
      | [] => .ok (mset m (f - 2, c - 2) false, inicio, (f - 2, c - 2))
      | y :: ys =>
        let meta := pyMaxBy (fun q => (f - q.1 - 1) + (c - q.2 - 1)) y ys
        .ok (mset (mset m inicio false) meta false, inicio, meta)

/-- All grid positions, row-major, as scanned by searches over the grid. -/
def allCells (f c : ℤ) : List Pos :=
  (pyRange 0 f).flatMap fun i => (pyRange 0 c).map fun j => (i, j)

/-- Single-cell adjacency: the four cardinal unit moves used by the
solvability DFS of `_garantizar_solucion`. -/
def Adj (p q : Pos) : Prop :=
  (q.1 = p.1 + 1 ∧ q.2 = p.2) ∨ (q.1 = p.1 - 1 ∧ q.2 = p.2) ∨
  (q.1 = p.1 ∧ q.2 = p.2 + 1) ∨ (q.1 = p.1 ∧ q.2 = p.2 - 1)

instance (p q : Pos) : Decidable (Adj p q) := by
  unfold Adj; infer_instance

/-- One step of the solvability search: move to an adjacent in-bounds
path cell (the source cell is not constrained, exactly like the Python
`dfs`, which never tests the cell it starts from). -/
def Step (m : Mat) (f c : ℤ) (p q : Pos) : Prop :=
  Adj p q ∧ InBoundsP f c q ∧ m q = false

/-- Reachability through path cells: the semantics computed by the
recursive `dfs` of `_garantizar_solucion`. -/
def Reach (m : Mat) (f c : ℤ) : Pos → Pos → Prop :=
  Relation.ReflTransGen (Step m f c)

/-- Boolean mirror of `Step`. -/
def stepB (m : Mat) (f c : ℤ) (p q : Pos) : Bool :=
  decide (Adj p q ∧ InBoundsP f c q ∧ m q = false)

/-- One saturation round of the executable reachability check: append
every not-yet-visited in-bounds cell reachable in one step from the
visited list. -/
def bfsExpand (m : Mat) (f c : ℤ) (v : List Pos) : List Pos :=
  v ++ (allCells f c).filter fun q => !(v.contains q) && v.any fun p => stepB m f c p q

/-- Iterated saturation. -/
def bfsIter (m : Mat) (f c : ℤ) : Nat → List Pos → List Pos
  | 0, v => v
  | n + 1, v => bfsIter m f c n (bfsExpand m f c v)

/-- Executable decision of `Reach` (the embedded form of the
visited-set search run by `_garantizar_solucion`): saturate for one
more round than there are cells, then test membership of the target. -/
def bfsReach (m : Mat) (f c : ℤ) (s t : Pos) : Bool :=
  (bfsIter m f c ((allCells f c).length + 1) [s]).contains t

/-- Inner loop of `_crear_camino`: `while y != meta_y: y += sign;
matriz[x, y] = 0`, unrolled on the number of remaining steps. -/
def carveRowGo (x ty : ℤ) : Nat → ℤ → Mat → Mat
  | 0, _, m => m
  | s + 1, y, m =>
    let y1 := y + (if y < ty then 1 else -1)
    carveRowGo x ty s y1 (mset m (x, y1) false)

/-- Second loop of `_crear_camino`: `while x != meta_x: x += sign;
matriz[x, y] = 0`, with the column already at `meta_y`. -/
def carveColGo (y tx : ℤ) : Nat → ℤ → Mat → Mat
  | 0, _, m => m
  | s + 1, x, m =>
    let x1 := x + (if x < tx then 1 else -1)
    carveColGo y tx s x1 (mset m (x1, y) false)

/-- Embedding of `_crear_camino`: carve horizontally along the start
row to the goal column, then vertically along the goal column to the
goal row.  The starting cell itself is not written. -/
def crearCamino (m : Mat) (s t : Pos) : Mat :=
  carveColGo t.2 t.1 ((t.1 - s.1).natAbs) s.1
    (carveRowGo s.1 t.2 ((t.2 - s.2).natAbs) s.2 m)

/-- Embedding of `_garantizar_solucion`: if the goal is reachable from
the start the matrix is untouched, otherwise the direct L-shaped path
is carved. -/
def garantizar (f c : ℤ) (m : Mat) (s t : Pos) : Mat :=
  if bfsReach m f c s t then m else crearCamino m s t

/-- The generation pipeline up to and including endpoint selection
(stages `_generar` through `_establecer_inicio_meta`). -/
def generarAux (g : Nat → Nat) (uq : Nat → ℚ) (f c : ℤ)
    (complejidad densidad : ℚ) : Except Unit (Mat × Pos × Pos) :=
  match genDfs g f c with
  | .error _ => .error ()
  | .ok st =>
    let s2 := agregarComplejidad g f c st.k st.m st.vis st.bifs
      (factorRamificacion complejidad)
    let s3 := crearCiclos uq f c s2.1 s2.2.2 (densidad * (15 / 100))
    establecer f c s3.1

/-- Full embedding of maze construction (`Laberinto.__init__` /
`_generar` for given dimensions and tuning factors): the pipeline
followed by the connectivity guarantee. -/
def generar (g : Nat → Nat) (uq : Nat → ℚ) (f c : ℤ)
    (complejidad densidad : ℚ) : Except Unit (Mat × Pos × Pos) :=
  match generarAux g uq f c complejidad densidad with
  | .error _ => .error ()
  | .ok r => .ok (garantizar f c r.1 r.2.1 r.2.2, r.2.1, r.2.2)

/-- Final matrix of a generated maze (all-wall dummy if construction
failed). -/
def genMat (g : Nat → Nat) (uq : Nat → ℚ) (f c : ℤ) (cpl dens : ℚ) : Mat :=
  match generar g uq f c cpl dens with
  | .ok r => r.1
  | .error _ => allWalls

/-- Matrix just before `_garantizar_solucion` runs (all-wall dummy if
construction failed). -/
def genPreMat (g : Nat → Nat) (uq : Nat → ℚ) (f c : ℤ) (cpl dens : ℚ) : Mat :=
  match generarAux g uq f c cpl dens with
  | .ok r => r.1
  | .error _ => allWalls

/-- Start position of a generated maze (the pre-generation default
`(0, 0)` of `__init__` if construction failed). -/
def genInicio (g : Nat → Nat) (uq : Nat → ℚ) (f c : ℤ) (cpl dens : ℚ) : Pos :=
  match generar g uq f c cpl dens with
  | .ok r => r.2.1
  | .error _ => (0, 0)

/-- Goal position of a generated maze (the pre-generation default
`(filas - 1, columnas - 1)` of `__init__` if construction failed). -/
def genMeta (g : Nat → Nat) (uq : Nat → ℚ) (f c : ℤ) (cpl dens : ℚ) : Pos :=
  match generar g uq f c cpl dens with
  | .ok r => r.2.2
  | .error _ => (f - 1, c - 1)

/-- Matrix at the end of the DFS carving stage (all-wall dummy if the
origin pick failed). -/
def genDfsMat (g : Nat → Nat) (f c : ℤ) : Mat :=
  match genDfs g f c with
  | .ok st => st.m
  | .error _ => allWalls

/-- Matrix at the end of the complexity-injection stage (all-wall dummy
if the origin pick failed). -/
def genCompMat (g : Nat → Nat) (f c : ℤ) (cpl : ℚ) : Mat :=
  match genDfs g f c with
  | .ok st =>
    (agregarComplejidad g f c st.k st.m st.vis st.bifs (factorRamificacion cpl)).1
  | .error _ => allWalls

/-- Number of path cells of a matrix over the whole grid. -/
def pathCount (m : Mat) (f c : ℤ) : ℕ :=
  ((allCells f c).filter fun p => m p = false).length

/-- Membership of a position on the outer border of the grid. -/
def BorderP (f c : ℤ) (p : Pos) : Prop :=
  p.1 = 0 ∨ p.1 = f - 1 ∨ p.2 = 0 ∨ p.2 = c - 1

/-- Specification-side rounding used by the claim about the number of
processed branch candidates (`round(len * branch_factor)`). -/
def specRoundedCount (cpl : ℚ) (len : ℕ) : ℤ :=
  round ((len : ℚ) * factorRamificacion cpl)

/-! Basic lemmas about matrix updates. -/

lemma mset_apply_self (m : Mat) (p : Pos) (b : Bool) : mset m p b p = b := by
  simp [mset]

lemma mset_apply_ne (m : Mat) (p q : Pos) (b : Bool) (h : q ≠ p) :
    mset m p b q = m q := by
  simp [mset, h]

lemma mset_false_eq_false_iff (m : Mat) (p q : Pos) :
    mset m p false q = false ↔ q = p ∨ m q = false := by
  by_cases h : q = p <;> simp [mset, h]

lemma mset_preserves_false (m : Mat) (p q : Pos) (h : m q = false) :
    mset m p false q = false := by
  by_cases hq : q = p <;> simp [mset, hq, h]

lemma mset_false_of_false (m : Mat) (p : Pos) (h : m p = false) :
    mset m p false = m := by
  funext q
  by_cases hq : q = p <;> simp [mset, hq, h.symm]

/-! Lemmas about the shuffle model: the output is a permutation of the
input and the counter advances by the input length. -/

lemma getD_cons_eraseIdx_perm {α : Type} [DecidableEq α] (l : List α) (j : Nat) (d : α)
    (h : j < l.length) : (l.getD j d :: l.eraseIdx j).Perm l := by
  have h1 : l.getD j d = l.get ⟨j, h⟩ := by
    simp [List.getD_eq_getElem?_getD, List.getElem?_eq_getElem h]
  have h2 : (l.erase l[j]).Perm (l.eraseIdx j) := List.erase_getElem h
  have h3 : l.Perm (l[j] :: l.erase l[j]) :=
    List.perm_cons_erase (List.getElem_mem h)
  rw [h1]
  exact (h2.symm.cons _).trans h3.symm

lemma pyShuffleGo_perm {α : Type} [DecidableEq α] (g : Nat → Nat) :
    ∀ (fuel : Nat) (l : List α) (k : Nat), l.length ≤ fuel →
      (pyShuffleGo g k fuel l).1.Perm l := by
  intro fuel
  induction fuel with
  | zero => intro l k h; exact List.Perm.refl l
  | succ n ih =>
    intro l k h
    match l with
    | [] => simp [pyShuffleGo]
    | x :: xs =>
      have hj : g k % (xs.length + 1) < (x :: xs).length := by
        simp [Nat.mod_lt _ (Nat.succ_pos xs.length)]
      have hlen : ((x :: xs).eraseIdx (g k % (xs.length + 1))).length ≤ n := by
        have h3 := List.length_eraseIdx_add_one hj
        simp only [List.length_cons] at h3 h
        omega
      have hrec := ih ((x :: xs).eraseIdx (g k % (xs.length + 1))) (k + 1) hlen
      have hperm := getD_cons_eraseIdx_perm (x :: xs) (g k % (xs.length + 1)) x hj
      simpa [pyShuffleGo] using (hrec.cons _).trans hperm

lemma pyShuffle_perm {α : Type} [DecidableEq α] (g : Nat → Nat) (k : Nat) (l : List α) :
    (pyShuffle g k l).1.Perm l :=
  pyShuffleGo_perm g l.length l k le_rfl

lemma pyShuffleGo_snd {α : Type} (g : Nat → Nat) :
    ∀ (fuel : Nat) (l : List α) (k : Nat), l.length = fuel →
      (pyShuffleGo g k fuel l).2 = k + fuel := by
  intro fuel
  induction fuel with
  | zero => intro l k h; simp [pyShuffleGo]
  | succ n ih =>
    intro l k h
    match l with
    | [] => simp at h
    | x :: xs =>
      have hj : g k % (xs.length + 1) < (x :: xs).length := by
        simp [Nat.mod_lt _ (Nat.succ_pos xs.length)]
      have hlen : ((x :: xs).eraseIdx (g k % (xs.length + 1))).length = n := by
        have h3 := List.length_eraseIdx_add_one hj
        simp only [List.length_cons] at h3 h
        omega
      have := ih ((x :: xs).eraseIdx (g k % (xs.length + 1))) (k + 1) hlen
      simp [pyShuffleGo, this]
      omega

lemma pyShuffle_snd {α : Type} (g : Nat → Nat) (k : Nat) (l : List α) :
    (pyShuffle g k l).2 = k + l.length :=
  pyShuffleGo_snd g l.length l k rfl

/-! Lemmas about the range helpers. -/

lemma mem_pyRange {lo hi z : ℤ} : z ∈ pyRange lo hi ↔ lo ≤ z ∧ z < hi := by
  simp only [pyRange, List.mem_map, List.mem_range]
  constructor
  · rintro ⟨t, ht, rfl⟩
    omega
  · rintro ⟨h1, h2⟩
    exact ⟨(z - lo).toNat, by omega, by omega⟩

lemma mem_pyRangeStep2 {lo hi z : ℤ} :
    z ∈ pyRangeStep2 lo hi ↔ lo ≤ z ∧ z < hi ∧ (z - lo) % 2 = 0 := by
  simp only [pyRangeStep2, List.mem_map, List.mem_range]
  constructor
  · rintro ⟨t, ht, rfl⟩
    omega
  · rintro ⟨h1, h2, h3⟩
    exact ⟨((z - lo) / 2).toNat, by omega, by omega⟩

lemma pyRange_nodup (lo hi : ℤ) : (pyRange lo hi).Nodup := by
  refine List.Nodup.map ?_ (List.nodup_range _)
  intro a b h
  simp only [] at h
  omega

lemma pyRangeStep2_nodup (lo hi : ℤ) : (pyRangeStep2 lo hi).Nodup := by
  refine List.Nodup.map ?_ (List.nodup_range _)
  intro a b h
  simp only [] at h
  omega

lemma mem_allCells {f c : ℤ} {p : Pos} : p ∈ allCells f c ↔ InBoundsP f c p := by
  rcases p with ⟨i, j⟩
  simp only [allCells, List.mem_flatMap, List.mem_map, InBoundsP]
  constructor
  · rintro ⟨a, ha, b, hb, h⟩
    obtain ⟨rfl, rfl⟩ : a = i ∧ b = j := by
      constructor <;> { cases h; rfl }
    rw [mem_pyRange] at ha
    rw [mem_pyRange] at hb
    exact ⟨ha.1, ha.2, hb.1, hb.2⟩
  · rintro ⟨h1, h2, h3, h4⟩
    exact ⟨i, mem_pyRange.2 ⟨h1, h2⟩, j, mem_pyRange.2 ⟨h3, h4⟩, rfl⟩

lemma allCells_nodup (f c : ℤ) : (allCells f c).Nodup := by
  rw [allCells, List.nodup_flatMap]
  constructor
  · intro i _
    refine List.Nodup.map ?_ (pyRange_nodup 0 c)
    intro a b h
    cases h
    rfl
  · refine (pyRange_nodup 0 f).imp ?_
    intro a b hab
    simp only [Function.onFun, List.disjoint_left]
    rintro x hx hy
    rcases List.mem_map.1 hx with ⟨u, _, rfl⟩
    rcases List.mem_map.1 hy with ⟨v, _, h⟩
    exact hab (by cases h; rfl)

lemma ciclosCells_nodup (f c : ℤ) : (ciclosCells f c).Nodup := by
  rw [ciclosCells, List.nodup_flatMap]
  constructor
  · intro i _
    refine List.Nodup.map ?_ (pyRangeStep2_nodup 2 (c - 2))
    intro a b h
    cases h
    rfl
  · refine (pyRangeStep2_nodup 2 (f - 2)).imp ?_
    intro a b hab
    simp only [Function.onFun, List.disjoint_left]
    rintro x hx hy
    rcases List.mem_map.1 hx with ⟨u, _, rfl⟩
    rcases List.mem_map.1 hy with ⟨v, _, h⟩
    exact hab (by cases h; rfl)

lemma mem_ciclosCells {f c : ℤ} {p : Pos} :
    p ∈ ciclosCells f c ↔
      2 ≤ p.1 ∧ p.1 < f - 2 ∧ p.1 % 2 = 0 ∧ 2 ≤ p.2 ∧ p.2 < c - 2 ∧ p.2 % 2 = 0 := by
  rcases p with ⟨i, j⟩
  simp only [ciclosCells, List.mem_flatMap, List.mem_map]
  constructor
  · rintro ⟨a, ha, b, hb, h⟩
    obtain ⟨rfl, rfl⟩ : a = i ∧ b = j := by
      constructor <;> { cases h; rfl }
    rw [mem_pyRangeStep2] at ha
    rw [mem_pyRangeStep2] at hb
    refine ⟨ha.1, ha.2.1, by omega, hb.1, hb.2.1, by omega⟩
  · rintro ⟨h1, h2, h3, h4, h5, h6⟩
    exact ⟨i, mem_pyRangeStep2.2 ⟨h1, h2, by omega⟩, j,
      mem_pyRangeStep2.2 ⟨h4, h5, by omega⟩, rfl⟩

/-! Lemmas about the first-minimal and first-maximal selections. -/

lemma pyMinBy_mem (f : Pos → ℤ) (x : Pos) (xs : List Pos) :
    pyMinBy f x xs ∈ x :: xs := by
  induction xs generalizing x with
  | nil => simp [pyMinBy]
  | cons a t ih =>
    have h := ih (if f a < f x then a else x)
    rcases List.mem_cons.1 h with h1 | h1
    · by_cases hx : f a < f x <;>
        simp only [pyMinBy, List.foldl_cons] at h1 ⊢ <;>
        rw [h1] <;> simp [hx]
    · simp only [pyMinBy, List.foldl_cons]
      exact List.mem_cons.2 (Or.inr (List.mem_cons.2 (Or.inr h1)))

lemma pyMaxBy_mem (f : Pos → ℤ) (x : Pos) (xs : List Pos) :
    pyMaxBy f x xs ∈ x :: xs := by
  induction xs generalizing x with
  | nil => simp [pyMaxBy]
  | cons a t ih =>
    have h := ih (if f x < f a then a else x)
    rcases List.mem_cons.1 h with h1 | h1
    · by_cases hx : f x < f a <;>
        simp only [pyMaxBy, List.foldl_cons] at h1 ⊢ <;>
        rw [h1] <;> simp [hx]
    · simp only [pyMaxBy, List.foldl_cons]
      exact List.mem_cons.2 (Or.inr (List.mem_cons.2 (Or.inr h1)))

/-! Lemmas about the odd `randrange` model. -/

lemma randrangeOdd_isOk_iff (g : Nat → Nat) (k : Nat) (lo hi : ℤ) :
    (∃ r, randrangeOdd g k lo hi = .ok r) ↔ lo < hi := by
  unfold randrangeOdd
  by_cases h : hi ≤ lo
  · simp only [if_pos h]
    constructor
    · rintro ⟨r, hr⟩
      cases hr
    · intro hlt
      omega
  · simp only [if_neg h]
    constructor
    · intro _
      omega
    · intro _
      exact ⟨_, rfl⟩

lemma randrangeOdd_ok (g : Nat → Nat) (k k2 : Nat) (n r : ℤ)
    (h : randrangeOdd g k 1 (n - 1) = .ok (r, k2)) :
    3 ≤ n ∧ 1 ≤ r ∧ r ≤ n - 2 ∧ r % 2 = 1 ∧ k2 = k + 1 := by
  unfold randrangeOdd at h
  by_cases hle : n - 1 ≤ 1
  · simp [hle] at h
  · simp only [hle, if_false, Except.ok.injEq, Prod.mk.injEq] at h
    obtain ⟨hr, hk⟩ := h
    have hcnt : 0 < (n - 1 - 1 + 1) / 2 := by omega
    have h0 : 0 ≤ (g k : ℤ) % ((n - 1 - 1 + 1) / 2) :=
      Int.emod_nonneg _ (by omega)
    have h1 : (g k : ℤ) % ((n - 1 - 1 + 1) / 2) < (n - 1 - 1 + 1) / 2 :=
      Int.emod_lt_of_pos _ hcnt
    omega

/-! The one-cell step relation, reachability, and correctness of the
executable reachability decision `bfsReach`. -/

lemma adj_symm {p q : Pos} (h : Adj p q) : Adj q p := by
  unfold Adj at h ⊢
  omega

lemma stepB_iff {m : Mat} {f c : ℤ} {p q : Pos} :
    stepB m f c p q = true ↔ Step m f c p q := by
  simp [stepB, Step]

lemma reach_mono {m m' : Mat} {f c : ℤ} {p q : Pos}
    (hm : ∀ r, m r = false → m' r = false) (h : Reach m f c p q) :
    Reach m' f c p q :=
  Relation.ReflTransGen.mono (fun _ _ hs => ⟨hs.1, hs.2.1, hm _ hs.2.2⟩) h

lemma reach_target {m : Mat} {f c : ℤ} {p q : Pos} (h : Reach m f c p q) :
    q = p ∨ (InBoundsP f c q ∧ m q = false) := by
  induction h with
  | refl => exact Or.inl rfl
  | tail _ hs _ => exact Or.inr ⟨hs.2.1, hs.2.2⟩

lemma reach_symm {m : Mat} {f c : ℤ} {p q : Pos}
    (hp : InBoundsP f c p) (hmp : m p = false) (h : Reach m f c p q) :
    Reach m f c q p := by
  induction h with
  | refl => exact Relation.ReflTransGen.refl
  | tail h1 hs ih =>
    rename_i b q2
    have hb : InBoundsP f c b ∧ m b = false := by
      rcases reach_target h1 with h2 | h2
      · rw [h2]; exact ⟨hp, hmp⟩
      · exact h2
    exact Relation.ReflTransGen.head ⟨adj_symm hs.1, hb.1, hb.2⟩ ih

/-- Connectivity of the whole path-cell set of a matrix. -/
def Conn (m : Mat) (f c : ℤ) : Prop :=
  ∀ p q, InBoundsP f c p → m p = false → InBoundsP f c q → m q = false →
    Reach m f c p q

lemma conn_allWalls (f c : ℤ) : Conn allWalls f c := by
  intro p q _ hp
  simp [allWalls] at hp

/-- Carving a cell that is adjacent to an existing path cell preserves
connectivity of the path-cell set. -/
lemma conn_mset {m : Mat} {f c : ℤ} {n r : Pos}
    (hConn : Conn m f c) (hn : InBoundsP f c n) (hr : InBoundsP f c r)
    (hrp : m r = false) (hadj : Adj n r) :
    Conn (mset m n false) f c := by
  have hmono : ∀ x, m x = false → mset m n false x = false :=
    fun x hx => mset_preserves_false m n x hx
  intro p q hp hmp hq hmq
  rw [mset_false_eq_false_iff] at hmp hmq
  have hton : ∀ x, InBoundsP f c x → m x = false → Reach (mset m n false) f c x n := by
    intro x hx hmx
    have h1 : Reach (mset m n false) f c x r := reach_mono hmono (hConn x r hx hmx hr hrp)
    exact h1.tail ⟨adj_symm hadj, hn, mset_apply_self m n false⟩
  rcases hmp with hpn | hmp
  · rcases hmq with hqn | hmq
    · rw [hpn, hqn]
      exact Relation.ReflTransGen.refl
    · have h1 : Reach (mset m n false) f c q n := hton q hq hmq
      rw [hpn]
      exact reach_symm hq (hmono q hmq) h1
  · rcases hmq with hqn | hmq
    · rw [hqn]
      exact hton p hp hmp
    · exact reach_mono hmono (hConn p q hp hmp hq hmq)

lemma bfsExpand_mem_of_mem {m : Mat} {f c : ℤ} {v : List Pos} {p : Pos}
    (h : p ∈ v) : p ∈ bfsExpand m f c v :=
  List.mem_append.2 (Or.inl h)

lemma bfsExpand_sound {m : Mat} {f c : ℤ} {s : Pos} {v : List Pos}
    (hv : ∀ p ∈ v, Reach m f c s p) :
    ∀ q ∈ bfsExpand m f c v, Reach m f c s q := by
  intro q hq
  rcases List.mem_append.1 hq with h | h
  · exact hv q h
  · rw [List.mem_filter] at h
    obtain ⟨p, hp, hstep⟩ := List.any_eq_true.1 (Bool.and_elim_right h.2)
    exact (hv p hp).tail (stepB_iff.1 hstep)

lemma bfsIter_sound {m : Mat} {f c : ℤ} {s : Pos} :
    ∀ (n : Nat) (v : List Pos), (∀ p ∈ v, Reach m f c s p) →
      ∀ q ∈ bfsIter m f c n v, Reach m f c s q := by
  intro n
  induction n with
  | zero => intro v hv q hq; exact hv q hq
  | succ k ih =>
    intro v hv q hq
    exact ih (bfsExpand m f c v) (bfsExpand_sound hv) q hq

lemma bfsIter_mem_of_mem {m : Mat} {f c : ℤ} {p : Pos} :
    ∀ (n : Nat) (v : List Pos), p ∈ v → p ∈ bfsIter m f c n v := by
  intro n
  induction n with
  | zero => intro v hv; exact hv
  | succ k ih => intro v hv; exact ih _ (bfsExpand_mem_of_mem hv)

lemma bfsExpand_closed {m : Mat} {f c : ℤ} {v : List Pos} {p q : Pos}
    (hfix : bfsExpand m f c v = v) (hp : p ∈ v) (hs : Step m f c p q) :
    q ∈ v := by
  by_contra hq
  have hqc : q ∈ allCells f c := mem_allCells.2 hs.2.1
  have hcf : v.contains q = false :=
    Bool.eq_false_iff.mpr (fun hcon => hq (List.elem_iff.1 hcon))
  have hmem : q ∈ bfsExpand m f c v := by
    refine List.mem_append.2 (Or.inr (List.mem_filter.2 ⟨hqc, ?_⟩))
    rw [Bool.and_eq_true]
    exact ⟨by rw [hcf]; rfl, List.any_eq_true.2 ⟨p, hp, stepB_iff.2 hs⟩⟩
  rw [hfix] at hmem
  exact hq hmem

lemma bfsIter_of_fix {m : Mat} {f c : ℤ} {v : List Pos}
    (hfix : bfsExpand m f c v = v) : ∀ n, bfsIter m f c n v = v := by
  intro n
  induction n with
  | zero => rfl
  | succ k ih =>
    show bfsIter m f c k (bfsExpand m f c v) = v
    rw [hfix]
    exact ih

lemma bfsIter_succ (m : Mat) (f c : ℤ) :
    ∀ (n : Nat) (v : List Pos),
      bfsIter m f c (n + 1) v = bfsExpand m f c (bfsIter m f c n v) := by
  intro n
  induction n with
  | zero => intro v; rfl
  | succ k ih =>
    intro v
    show bfsIter m f c (k + 1) (bfsExpand m f c v) = _
    rw [ih (bfsExpand m f c v)]
    rfl

lemma bfsExpand_nodup {m : Mat} {f c : ℤ} {v : List Pos} (h : v.Nodup) :
    (bfsExpand m f c v).Nodup := by
  rw [bfsExpand, List.nodup_append]
  refine ⟨h, (allCells_nodup f c).filter _, ?_⟩
  rw [List.disjoint_left]
  intro a ha hb
  rw [List.mem_filter] at hb
  have h1 := Bool.and_elim_left hb.2
  have h2 : v.contains a = true := List.elem_iff.2 ha
  rw [h2] at h1
  simp at h1

lemma bfsExpand_subset {m : Mat} {f c : ℤ} {s : Pos} {v : List Pos}
    (h : v ⊆ s :: allCells f c) : bfsExpand m f c v ⊆ s :: allCells f c := by
  intro a ha
  rcases List.mem_append.1 ha with h1 | h1
  · exact h h1
  · exact List.mem_cons.2 (Or.inr (List.mem_filter.1 h1).1)

lemma bfsIter_nodup_subset {m : Mat} {f c : ℤ} {s : Pos} :
    ∀ (n : Nat) (v : List Pos), v.Nodup → v ⊆ s :: allCells f c →
      (bfsIter m f c n v).Nodup ∧ bfsIter m f c n v ⊆ s :: allCells f c := by
  intro n
  induction n with
  | zero => intro v h1 h2; exact ⟨h1, h2⟩
  | succ k ih =>
    intro v h1 h2
    exact ih _ (bfsExpand_nodup h1) (bfsExpand_subset h2)

lemma bfsExpand_length_lt {m : Mat} {f c : ℤ} {v : List Pos}
    (h : bfsExpand m f c v ≠ v) : v.length < (bfsExpand m f c v).length := by
  by_cases h0 : (allCells f c).filter
      (fun q => !v.contains q && v.any fun p => stepB m f c p q) = []
  · exact absurd (by rw [bfsExpand, h0, List.append_nil]) h
  · rw [bfsExpand, List.length_append]
    have := List.length_pos.2 h0
    omega

lemma bfsIter_fix_or_long {m : Mat} {f c : ℤ} {s : Pos} :
    ∀ (k : Nat),
      (∃ j ≤ k, bfsExpand m f c (bfsIter m f c j [s]) = bfsIter m f c j [s]) ∨
      k + 1 ≤ (bfsIter m f c k [s]).length := by
  intro k
  induction k with
  | zero => right; simp [bfsIter]
  | succ n ih =>
    rcases ih with ⟨j, hj, hfix⟩ | hlen
    · exact Or.inl ⟨j, le_trans hj (Nat.le_succ n), hfix⟩
    · by_cases hfix : bfsExpand m f c (bfsIter m f c n [s]) = bfsIter m f c n [s]
      · exact Or.inl ⟨n, Nat.le_succ n, hfix⟩
      · right
        rw [bfsIter_succ]
        have := bfsExpand_length_lt hfix
        omega

lemma bfsIter_add (m : Mat) (f c : ℤ) :
    ∀ (a b : Nat) (v : List Pos),
      bfsIter m f c (b + a) v = bfsIter m f c b (bfsIter m f c a v) := by
  intro a
  induction a with
  | zero => intro b v; rfl
  | succ t ih =>
    intro b v
    calc bfsIter m f c (b + (t + 1)) v
        = bfsIter m f c (b + t) (bfsExpand m f c v) := rfl
      _ = bfsIter m f c b (bfsIter m f c t (bfsExpand m f c v)) := ih b _
      _ = bfsIter m f c b (bfsIter m f c (t + 1) v) := rfl

lemma bfsIter_reaches_fix (m : Mat) (f c : ℤ) (s : Pos) :
    bfsExpand m f c (bfsIter m f c ((allCells f c).length + 1) [s]) =
      bfsIter m f c ((allCells f c).length + 1) [s] := by
  rcases bfsIter_fix_or_long (m := m) (f := f) (c := c) (s := s)
      ((allCells f c).length + 1) with ⟨j, hj, hfix⟩ | hlen
  · obtain ⟨d, hd⟩ := Nat.exists_eq_add_of_le hj
    have h2 : bfsIter m f c ((allCells f c).length + 1) [s] = bfsIter m f c j [s] := by
      rw [hd]
      have h3 : j + d = d + j := by omega
      rw [h3, bfsIter_add m f c j d [s], bfsIter_of_fix hfix]
    rw [h2]
    exact hfix
  · exfalso
    have hns := bfsIter_nodup_subset (m := m) (f := f) (c := c) (s := s)
      ((allCells f c).length + 1) [s] (by simp) (by intro a ha; simp at ha; simp [ha])
    have := (List.subperm_of_subset hns.1 hns.2).length_le
    simp only [List.length_cons] at this
    omega

/-- Correctness of the executable reachability check. -/
lemma bfsReach_iff {m : Mat} {f c : ℤ} {s t : Pos} :
    bfsReach m f c s t = true ↔ Reach m f c s t := by
  rw [bfsReach, List.elem_iff]
  constructor
  · intro h
    refine bfsIter_sound _ [s] ?_ t h
    intro p hp
    simp at hp
    rw [hp]
    exact Relation.ReflTransGen.refl
  · intro h
    have hs : s ∈ bfsIter m f c ((allCells f c).length + 1) [s] :=
      bfsIter_mem_of_mem _ [s] (by simp)
    have hfix := bfsIter_reaches_fix m f c s
    induction h with
    | refl => exact hs
    | tail h1 hstep ih => exact bfsExpand_closed hfix ih hstep

/-! Unfolding lemmas for the DFS carving loop, and a characterization
of the neighbour scan. -/

lemma interior_inBounds {f c : ℤ} {p : Pos} (h : InteriorP f c p) :
    InBoundsP f c p := by
  unfold InteriorP at h
  unfold InBoundsP
  omega

lemma mem_vecinosOf {f c : ℤ} {vis : Finset Pos} {p : Pos} {ds : List (ℤ × ℤ)}
    {v : Vec4} :
    v ∈ vecinosOf f c vis p ds ↔
      ∃ d ∈ ds, InteriorP f c (p.1 + d.1, p.2 + d.2) ∧
        (p.1 + d.1, p.2 + d.2) ∉ vis ∧
        v = (p.1 + d.1, p.2 + d.2, d.1 / 2, d.2 / 2) := by
  rw [vecinosOf, List.mem_filterMap]
  constructor
  · rintro ⟨d, hd, hsome⟩
    by_cases hc : InteriorP f c (p.1 + d.1, p.2 + d.2) ∧ (p.1 + d.1, p.2 + d.2) ∉ vis
    · rw [if_pos hc] at hsome
      exact ⟨d, hd, hc.1, hc.2, (Option.some.injEq _ _ ▸ hsome).symm⟩
    · rw [if_neg hc] at hsome
      cases hsome
  · rintro ⟨d, hd, h1, h2, rfl⟩
    exact ⟨d, hd, by rw [if_pos ⟨h1, h2⟩]⟩

lemma vecinosOf_eq_nil {f c : ℤ} {vis : Finset Pos} {p : Pos} {ds : List (ℤ × ℤ)} :
    vecinosOf f c vis p ds = [] ↔
      ∀ d ∈ ds, InteriorP f c (p.1 + d.1, p.2 + d.2) →
        (p.1 + d.1, p.2 + d.2) ∈ vis := by
  rw [vecinosOf, List.filterMap_eq_nil_iff]
  constructor
  · intro h d hd hint
    by_contra hvis
    have := h d hd
    rw [if_pos ⟨hint, hvis⟩] at this
    cases this
  · intro h d hd
    by_cases hc : InteriorP f c (p.1 + d.1, p.2 + d.2) ∧ (p.1 + d.1, p.2 + d.2) ∉ vis
    · exact absurd (h d hd hc.1) hc.2
    · rw [if_neg hc]

lemma dfsLoopF_zero (g : Nat → Nat) (f c : ℤ) (st : DState) :
    dfsLoopF g f c 0 st = st := rfl

lemma dfsLoopF_nil (g : Nat → Nat) (f c : ℤ) (fuel : Nat) (st : DState)
    (h : st.pila = []) : dfsLoopF g f c fuel st = st := by
  cases fuel with
  | zero => rfl
  | succ n =>
    rcases st with ⟨m, dirs, pila, vis, bifs, k⟩
    simp only at h
    subst h
    rfl

lemma dfsLoopF_cons_nil (g : Nat → Nat) (f c : ℤ) (fuel : Nat) (st : DState)
    (p : Pos) (rest : List Pos) (h : st.pila = p :: rest)
    (hv : vecinosOf f c st.vis p (pyShuffle g st.k st.dirs).1 = []) :
    dfsLoopF g f c (fuel + 1) st =
      dfsLoopF g f c fuel
        ⟨st.m, (pyShuffle g st.k st.dirs).1, rest, st.vis, st.bifs,
          (pyShuffle g st.k st.dirs).2⟩ := by
  rcases st with ⟨m, dirs, pila, vis, bifs, k⟩
  simp only at h hv ⊢
  subst h
  show (match vecinosOf f c vis p (pyShuffle g k dirs).1 with
    | [] => dfsLoopF g f c fuel ⟨m, (pyShuffle g k dirs).1, rest, vis, bifs,
        (pyShuffle g k dirs).2⟩
    | v :: vtl => dfsLoopF g f c fuel
        ⟨mset (mset m (p.1 + v.2.2.1, p.2 + v.2.2.2) false) (v.1, v.2.1) false,
          (pyShuffle g k dirs).1, (v.1, v.2.1) :: p :: rest,
          insert (v.1, v.2.1) vis,
          if vtl = [] then bifs else bifs ++ [(p, vtl)],
          (pyShuffle g k dirs).2⟩) = _
  rw [hv]

lemma dfsLoopF_cons_cons (g : Nat → Nat) (f c : ℤ) (fuel : Nat) (st : DState)
    (p : Pos) (rest : List Pos) (v : Vec4) (vtl : List Vec4)
    (h : st.pila = p :: rest)
    (hv : vecinosOf f c st.vis p (pyShuffle g st.k st.dirs).1 = v :: vtl) :
    dfsLoopF g f c (fuel + 1) st =
      dfsLoopF g f c fuel
        ⟨mset (mset st.m (p.1 + v.2.2.1, p.2 + v.2.2.2) false) (v.1, v.2.1) false,
          (pyShuffle g st.k st.dirs).1, (v.1, v.2.1) :: p :: rest,
          insert (v.1, v.2.1) st.vis,
          if vtl = [] then st.bifs else st.bifs ++ [(p, vtl)],
          (pyShuffle g st.k st.dirs).2⟩ := by
  rcases st with ⟨m, dirs, pila, vis, bifs, k⟩
  simp only at h hv ⊢
  subst h
  show (match vecinosOf f c vis p (pyShuffle g k dirs).1 with
    | [] => dfsLoopF g f c fuel ⟨m, (pyShuffle g k dirs).1, rest, vis, bifs,
        (pyShuffle g k dirs).2⟩
    | v :: vtl => dfsLoopF g f c fuel
        ⟨mset (mset m (p.1 + v.2.2.1, p.2 + v.2.2.2) false) (v.1, v.2.1) false,
          (pyShuffle g k dirs).1, (v.1, v.2.1) :: p :: rest,
          insert (v.1, v.2.1) vis,
          if vtl = [] then bifs else bifs ++ [(p, vtl)],
          (pyShuffle g k dirs).2⟩) = _
  rw [hv]

/-! Geometry of the four carving directions. -/

lemma dir_cases {d : ℤ × ℤ} (h : d ∈ direcciones) :
    d = (-2, 0) ∨ d = (0, 2) ∨ d = (2, 0) ∨ d = (0, -2) := by
  simpa [direcciones] using h

lemma adj_wall_src {p : Pos} {d : ℤ × ℤ} (h : d ∈ direcciones) :
    Adj (p.1 + d.1 / 2, p.2 + d.2 / 2) p := by
  rcases dir_cases h with rfl | rfl | rfl | rfl
  all_goals simp only [Adj]
  all_goals omega

lemma adj_tgt_wall {p : Pos} {d : ℤ × ℤ} (h : d ∈ direcciones) :
    Adj (p.1 + d.1, p.2 + d.2) (p.1 + d.1 / 2, p.2 + d.2 / 2) := by
  rcases dir_cases h with rfl | rfl | rfl | rfl
  all_goals simp only [Adj]
  all_goals omega

lemma interior_wall {f c : ℤ} {p : Pos} {d : ℤ × ℤ} (h : d ∈ direcciones)
    (hp : InteriorP f c p) (hn : InteriorP f c (p.1 + d.1, p.2 + d.2)) :
    InteriorP f c (p.1 + d.1 / 2, p.2 + d.2 / 2) := by
  unfold InteriorP at hp hn ⊢
  rcases dir_cases h with rfl | rfl | rfl | rfl
  all_goals simp only at hn ⊢
  all_goals omega

/-! The invariant carried through the DFS carving loop. -/

/-- Invariant of the DFS carving loop of `_generar`. -/
structure DfsInv (f c : ℤ) (st : DState) : Prop where
  visPath : ∀ p ∈ st.vis, st.m p = false
  wallOut : ∀ p, ¬ InteriorP f c p → st.m p = true
  conn : Conn st.m f c
  pilaVis : ∀ p ∈ st.pila, p ∈ st.vis
  visInt : ∀ p ∈ st.vis, InteriorP f c p
  closed : ∀ p ∈ st.vis, p ∉ st.pila → ∀ d ∈ direcciones,
    InteriorP f c (p.1 + d.1, p.2 + d.2) → (p.1 + d.1, p.2 + d.2) ∈ st.vis
  bifsOk : ∀ b ∈ st.bifs, b.1 ∈ st.vis ∧ ∀ v ∈ b.2, ∃ d ∈ direcciones,
    v.1 = b.1.1 + d.1 ∧ v.2.1 = b.1.2 + d.2 ∧ InteriorP f c (v.1, v.2.1)
  dirsPerm : st.dirs.Perm direcciones

lemma dfsInv_push {f c : ℤ} {st : DState} (g : Nat → Nat) (inv : DfsInv f c st)
    (p : Pos) (rest : List Pos) (v : Vec4) (vtl : List Vec4)
    (h : st.pila = p :: rest)
    (hv : vecinosOf f c st.vis p (pyShuffle g st.k st.dirs).1 = v :: vtl) :
    DfsInv f c
      ⟨mset (mset st.m (p.1 + v.2.2.1, p.2 + v.2.2.2) false) (v.1, v.2.1) false,
        (pyShuffle g st.k st.dirs).1, (v.1, v.2.1) :: p :: rest,
        insert (v.1, v.2.1) st.vis,
        if vtl = [] then st.bifs else st.bifs ++ [(p, vtl)],
        (pyShuffle g st.k st.dirs).2⟩ := by
  have hdsperm : (pyShuffle g st.k st.dirs).1.Perm direcciones :=
    (pyShuffle_perm g st.k st.dirs).trans inv.dirsPerm
  have hpvis : p ∈ st.vis := inv.pilaVis p (h ▸ List.mem_cons_self p rest)
  have hpint : InteriorP f c p := inv.visInt p hpvis
  have hvmem : v ∈ vecinosOf f c st.vis p (pyShuffle g st.k st.dirs).1 := by
    rw [hv]
    exact List.mem_cons_self v vtl
  obtain ⟨d, hd, hnint, hnvis, hveq⟩ := mem_vecinosOf.1 hvmem
  have hddir : d ∈ direcciones := hdsperm.mem_iff.1 hd
  subst hveq
  dsimp only
  have hwint : InteriorP f c (p.1 + d.1 / 2, p.2 + d.2 / 2) :=
    interior_wall hddir hpint hnint
  have hppath : st.m p = false := inv.visPath p hpvis
  have hm1 : Conn (mset st.m (p.1 + d.1 / 2, p.2 + d.2 / 2) false) f c :=
    conn_mset inv.conn (interior_inBounds hwint) (interior_inBounds hpint)
      hppath (adj_wall_src hddir)
  have hm2 : Conn (mset (mset st.m (p.1 + d.1 / 2, p.2 + d.2 / 2) false)
      (p.1 + d.1, p.2 + d.2) false) f c :=
    conn_mset hm1 (interior_inBounds hnint) (interior_inBounds hwint)
      (mset_apply_self _ _ _) (adj_tgt_wall hddir)
  refine ⟨?_, ?_, hm2, ?_, ?_, ?_, ?_, ?_⟩
  · dsimp only
    intro q hq
    rcases Finset.mem_insert.1 hq with rfl | hq2
    · exact mset_apply_self _ _ _
    · exact mset_preserves_false _ _ _
        (mset_preserves_false _ _ _ (inv.visPath q hq2))
  · dsimp only
    intro q hqint
    have hq1 : q ≠ ((p.1 + d.1, p.2 + d.2) : Pos) := fun hc => hqint (hc ▸ hnint)
    have hq2 : q ≠ ((p.1 + d.1 / 2, p.2 + d.2 / 2) : Pos) := fun hc => hqint (hc ▸ hwint)
    rw [mset_apply_ne _ _ _ _ hq1, mset_apply_ne _ _ _ _ hq2]
    exact inv.wallOut q hqint
  · dsimp only
    intro q hq
    rcases List.mem_cons.1 hq with rfl | hq2
    · exact Finset.mem_insert_self _ _
    · rw [← h] at hq2
      exact Finset.mem_insert_of_mem (inv.pilaVis q hq2)
  · dsimp only
    intro q hq
    rcases Finset.mem_insert.1 hq with rfl | hq2
    · exact hnint
    · exact inv.visInt q hq2
  · dsimp only
    intro q hq hqp d2 hd2 hint2
    rcases Finset.mem_insert.1 hq with rfl | hq2
    · exact absurd (List.mem_cons_self _ _) hqp
    · have hqp2 : q ∉ st.pila := by
        rw [h]
        intro hc
        exact hqp (List.mem_cons.2 (Or.inr hc))
      exact Finset.mem_insert_of_mem (inv.closed q hq2 hqp2 d2 hd2 hint2)
  · dsimp only
    intro b hb
    by_cases hvtl : vtl = []
    · rw [if_pos hvtl] at hb
      obtain ⟨h1, h2⟩ := inv.bifsOk b hb
      exact ⟨Finset.mem_insert_of_mem h1, h2⟩
    · rw [if_neg hvtl] at hb
      rcases List.mem_append.1 hb with hb2 | hb2
      · obtain ⟨h1, h2⟩ := inv.bifsOk b hb2
        exact ⟨Finset.mem_insert_of_mem h1, h2⟩
      · have hbeq : b = (p, vtl) := List.mem_singleton.1 hb2
        subst hbeq
        refine ⟨Finset.mem_insert_of_mem hpvis, ?_⟩
        intro v2 hv2
        have hv2mem : v2 ∈ vecinosOf f c st.vis p (pyShuffle g st.k st.dirs).1 := by
          rw [hv]
          exact List.mem_cons_of_mem _ hv2
        obtain ⟨d2, hd2, hint2, _, hveq2⟩ := mem_vecinosOf.1 hv2mem
        subst hveq2
        exact ⟨d2, hdsperm.mem_iff.1 hd2, rfl, rfl, hint2⟩
  · exact hdsperm

lemma dfsInv_pop {f c : ℤ} {st : DState} (g : Nat → Nat) (inv : DfsInv f c st)
    (p : Pos) (rest : List Pos) (h : st.pila = p :: rest)
    (hv : vecinosOf f c st.vis p (pyShuffle g st.k st.dirs).1 = []) :
    DfsInv f c
      ⟨st.m, (pyShuffle g st.k st.dirs).1, rest, st.vis, st.bifs,
        (pyShuffle g st.k st.dirs).2⟩ := by
  have hdsperm : (pyShuffle g st.k st.dirs).1.Perm direcciones :=
    (pyShuffle_perm g st.k st.dirs).trans inv.dirsPerm
  have hclosedp : ∀ d ∈ direcciones, InteriorP f c (p.1 + d.1, p.2 + d.2) →
      (p.1 + d.1, p.2 + d.2) ∈ st.vis := by
    intro d hd hint
    exact vecinosOf_eq_nil.1 hv d (hdsperm.mem_iff.2 hd) hint
  refine ⟨inv.visPath, inv.wallOut, inv.conn, ?_, inv.visInt, ?_, inv.bifsOk, hdsperm⟩
  · dsimp only
    intro q hq
    exact inv.pilaVis q (h ▸ List.mem_cons_of_mem p hq)
  · dsimp only
    intro q hq hqrest d hd hint
    by_cases hqp : q = p
    · subst hqp
      exact hclosedp d hd hint
    · have : q ∉ st.pila := by
        rw [h]
        intro hc
        rcases List.mem_cons.1 hc with h1 | h1
        · exact hqp h1
        · exact hqrest h1
      exact inv.closed q hq this d hd hint

lemma dfsLoopF_inv (g : Nat → Nat) (f c : ℤ) :
    ∀ (fuel : Nat) (st : DState), DfsInv f c st →
      DfsInv f c (dfsLoopF g f c fuel st) := by
  intro fuel
  induction fuel with
  | zero => intro st inv; exact inv
  | succ n ih =>
    intro st inv
    rcases hp : st.pila with _ | ⟨p, rest⟩
    · rw [dfsLoopF_nil g f c (n + 1) st hp]
      exact inv
    · rcases hv : vecinosOf f c st.vis p (pyShuffle g st.k st.dirs).1 with _ | ⟨v, vtl⟩
      · rw [dfsLoopF_cons_nil g f c n st p rest hp hv]
        exact ih _ (dfsInv_pop g inv p rest hp hv)
      · rw [dfsLoopF_cons_cons g f c n st p rest v vtl hp hv]
        exact ih _ (dfsInv_push g inv p rest v vtl hp hv)

/-- The matrix path set and the visited set grow monotonically through
the DFS loop. -/
lemma dfsLoopF_mono (g : Nat → Nat) (f c : ℤ) :
    ∀ (fuel : Nat) (st : DState),
      (∀ p, st.m p = false → (dfsLoopF g f c fuel st).m p = false) ∧
      (∀ p, p ∈ st.vis → p ∈ (dfsLoopF g f c fuel st).vis) := by
  intro fuel
  induction fuel with
  | zero => intro st; exact ⟨fun p h => h, fun p h => h⟩
  | succ n ih =>
    intro st
    rcases hp : st.pila with _ | ⟨p, rest⟩
    · rw [dfsLoopF_nil g f c (n + 1) st hp]
      exact ⟨fun q h => h, fun q h => h⟩
    · rcases hv : vecinosOf f c st.vis p (pyShuffle g st.k st.dirs).1 with _ | ⟨v, vtl⟩
      · rw [dfsLoopF_cons_nil g f c n st p rest hp hv]
        exact ih ⟨st.m, (pyShuffle g st.k st.dirs).1, rest, st.vis, st.bifs,
          (pyShuffle g st.k st.dirs).2⟩
      · rw [dfsLoopF_cons_cons g f c n st p rest v vtl hp hv]
        constructor
        · intro q hq
          exact (ih _).1 q (mset_preserves_false _ _ _ (mset_preserves_false _ _ _ hq))
        · intro q hq
          exact (ih _).2 q (Finset.mem_insert_of_mem hq)

/-! Termination of the DFS loop: within `dfsFuel` iterations the stack
is empty, so the embedded loop runs to completion. -/

/-- The interior cells as a finite set. -/
def interiorFS (f c : ℤ) : Finset Pos :=
  Finset.Icc 1 (f - 2) ×ˢ Finset.Icc 1 (c - 2)

lemma mem_interiorFS {f c : ℤ} {p : Pos} :
    p ∈ interiorFS f c ↔ InteriorP f c p := by
  rcases p with ⟨i, j⟩
  rw [interiorFS, Finset.mem_product, Finset.mem_Icc, Finset.mem_Icc]
  unfold InteriorP
  constructor
  · intro h; exact ⟨h.1.1, by omega, h.2.1, by omega⟩
  · intro h; exact ⟨⟨h.1, by omega⟩, ⟨h.2.2.1, by omega⟩⟩

/-- Decreasing measure of the DFS loop. -/
def dfsMeasure (f c : ℤ) (st : DState) : Nat :=
  2 * ((interiorFS f c ∪ st.vis).card - st.vis.card) + st.pila.length

lemma dfsLoopF_pila_nil (g : Nat → Nat) (f c : ℤ) :
    ∀ (fuel : Nat) (st : DState), dfsMeasure f c st ≤ fuel →
      (dfsLoopF g f c fuel st).pila = [] := by
  intro fuel
  induction fuel with
  | zero =>
    intro st hm
    rw [dfsMeasure] at hm
    rw [dfsLoopF_zero]
    have : st.pila.length = 0 := by omega
    exact List.length_eq_zero.1 this
  | succ n ih =>
    intro st hm
    rcases hp : st.pila with _ | ⟨p, rest⟩
    · rw [dfsLoopF_nil g f c (n + 1) st hp]
      exact hp
    · rcases hv : vecinosOf f c st.vis p (pyShuffle g st.k st.dirs).1 with _ | ⟨v, vtl⟩
      · rw [dfsLoopF_cons_nil g f c n st p rest hp hv]
        refine ih _ ?_
        rw [dfsMeasure] at hm ⊢
        rw [hp] at hm
        simp only [List.length_cons] at hm
        dsimp only
        omega
      · rw [dfsLoopF_cons_cons g f c n st p rest v vtl hp hv]
        refine ih _ ?_
        have hvmem : v ∈ vecinosOf f c st.vis p (pyShuffle g st.k st.dirs).1 := by
          rw [hv]
          exact List.mem_cons_self v vtl
        obtain ⟨d, hd, hnint, hnvis, hveq⟩ := mem_vecinosOf.1 hvmem
        have hn1 : (v.1, v.2.1) = ((p.1 + d.1, p.2 + d.2) : Pos) := by
          rw [hveq]
        have hnint2 : InteriorP f c (v.1, v.2.1) := by rw [hn1]; exact hnint
        have hnvis2 : (v.1, v.2.1) ∉ st.vis := by rw [hn1]; exact hnvis
        rw [dfsMeasure] at hm ⊢
        rw [hp] at hm
        simp only [List.length_cons] at hm
        dsimp only
        have hunion : interiorFS f c ∪ insert (v.1, v.2.1) st.vis =
            interiorFS f c ∪ st.vis := by
          rw [Finset.union_comm, Finset.insert_union, Finset.union_comm]
          exact Finset.insert_eq_self.2
            (Finset.mem_union.2 (Or.inl (mem_interiorFS.2 hnint2)))
        have hcard : (insert (v.1, v.2.1) st.vis).card = st.vis.card + 1 :=
          Finset.card_insert_of_not_mem hnvis2
        have hlt : st.vis.card < (interiorFS f c ∪ st.vis).card := by
          refine Finset.card_lt_card ?_
          rw [Finset.ssubset_iff_of_subset Finset.subset_union_right]
          exact ⟨(v.1, v.2.1), Finset.mem_union.2 (Or.inl (mem_interiorFS.2 hnint2)),
            hnvis2⟩
        rw [hunion, hcard]
        simp only [List.length_cons]
        omega

/-! Facts about the completed DFS stage. -/

lemma card_interiorFS (f c : ℤ) :
    (interiorFS f c).card = (f - 2).toNat * (c - 2).toNat := by
  rw [interiorFS, Finset.card_product, Int.card_Icc, Int.card_Icc]
  congr 1 <;> omega

lemma dfsInv_init {f c : ℤ} (o : Pos) (ho : InteriorP f c o) :
    DfsInv f c ⟨mset allWalls o false, direcciones, [o], {o}, [], 2⟩ := by
  refine ⟨?_, ?_, ?_, ?_, ?_, ?_, ?_, ?_⟩
  · dsimp only
    intro p hp
    rw [Finset.mem_singleton] at hp
    rw [hp]
    exact mset_apply_self _ _ _
  · dsimp only
    intro p hp
    have : p ≠ o := fun hc => hp (hc ▸ ho)
    rw [mset_apply_ne _ _ _ _ this]
    rfl
  · dsimp only
    intro p q hp hmp hq hmq
    rcases (mset_false_eq_false_iff _ _ _).1 hmp with rfl | hmp2
    · rcases (mset_false_eq_false_iff _ _ _).1 hmq with rfl | hmq2
      · exact Relation.ReflTransGen.refl
      · exact absurd hmq2 (by simp [allWalls])
    · exact absurd hmp2 (by simp [allWalls])
  · dsimp only
    intro p hp
    rw [List.mem_singleton] at hp
    rw [hp]
    exact Finset.mem_singleton_self o
  · dsimp only
    intro p hp
    rw [Finset.mem_singleton] at hp
    rw [hp]
    exact ho
  · dsimp only
    intro p hp hpila
    rw [Finset.mem_singleton] at hp
    exact absurd (by rw [hp]; exact List.mem_singleton_self o) hpila
  · dsimp only
    intro b hb
    cases hb
  · exact List.Perm.refl _

lemma dfsMeasure_init {f c : ℤ} (o : Pos) (k : Nat) (ho : InteriorP f c o) :
    dfsMeasure f c ⟨mset allWalls o false, direcciones, [o], {o}, [], k⟩ ≤
      dfsFuel f c := by
  rw [dfsMeasure, dfsFuel]
  dsimp only
  have h1 : interiorFS f c ∪ {o} = interiorFS f c := by
    rw [Finset.union_comm]
    refine Finset.union_eq_right.2 ?_
    intro x hx
    rw [Finset.mem_singleton] at hx
    rw [hx]
    exact mem_interiorFS.2 ho
  rw [h1, card_interiorFS, Finset.card_singleton]
  simp only [List.length_singleton]
  omega

lemma genDfs_ok (g : Nat → Nat) (f c : ℤ) (h3f : 3 ≤ f) (h3c : 3 ≤ c) :
    ∃ o : Pos, InteriorP f c o ∧ o.1 % 2 = 1 ∧ o.2 % 2 = 1 ∧
      (f ≤ 4 → o.1 = 1) ∧ (c ≤ 4 → o.2 = 1) ∧
      genDfs g f c = .ok (dfsLoopF g f c (dfsFuel f c)
        ⟨mset allWalls o false, direcciones, [o], {o}, [], 2⟩) := by
  obtain ⟨⟨ox, k1⟩, hx⟩ := (randrangeOdd_isOk_iff g 0 1 (f - 1)).2 (by omega)
  obtain ⟨⟨oy, k2⟩, hy⟩ := (randrangeOdd_isOk_iff g k1 1 (c - 1)).2 (by omega)
  obtain ⟨_, hx1, hx2, hx3, hk1⟩ := randrangeOdd_ok g 0 k1 f ox hx
  obtain ⟨_, hy1, hy2, hy3, hk2⟩ := randrangeOdd_ok g k1 k2 c oy hy
  refine ⟨(ox, oy), ⟨hx1, by omega, hy1, by omega⟩, hx3, hy3,
    fun h4 => by omega, fun h4 => by omega, ?_⟩
  rw [genDfs, hx]
  dsimp only
  rw [hy]
  dsimp only
  subst hk1
  subst hk2
  rfl

lemma genDfs_error_iff (g : Nat → Nat) (f c : ℤ) :
    genDfs g f c = .error () ↔ f < 3 ∨ c < 3 := by
  constructor
  · intro h
    by_contra hc
    push_neg at hc
    obtain ⟨o, _, _, _, _, _, hok⟩ := genDfs_ok g f c hc.1 hc.2
    rw [hok] at h
    cases h
  · intro h
    rw [genDfs]
    rcases hx : randrangeOdd g 0 1 (f - 1) with _ | ⟨ox, k1⟩
    · rfl
    · obtain ⟨h3f, _⟩ := randrangeOdd_ok g 0 k1 f ox hx
      dsimp only
      rcases hy : randrangeOdd g k1 1 (c - 1) with _ | ⟨oy, k2⟩
      · rfl
      · obtain ⟨h3c, _⟩ := randrangeOdd_ok g k1 k2 c oy hy
        omega

/-- Everything the later stages use about the completed DFS stage. -/
lemma genDfs_post (g : Nat → Nat) (f c : ℤ) (st : DState)
    (hst : genDfs g f c = .ok st) :
    3 ≤ f ∧ 3 ≤ c ∧ DfsInv f c st ∧ st.pila = [] ∧
      ∃ o : Pos, o ∈ st.vis ∧ InteriorP f c o ∧ o.1 % 2 = 1 ∧ o.2 % 2 = 1 ∧
        (f ≤ 4 → o.1 = 1) ∧ (c ≤ 4 → o.2 = 1) := by
  have h3 : 3 ≤ f ∧ 3 ≤ c := by
    by_contra hc
    have : genDfs g f c = .error () := (genDfs_error_iff g f c).2 (by omega)
    rw [this] at hst
    cases hst
  obtain ⟨o, ho, ho1, ho2, ho3, ho4, hok⟩ := genDfs_ok g f c h3.1 h3.2
  rw [hok] at hst
  have hsteq : st = dfsLoopF g f c (dfsFuel f c)
      ⟨mset allWalls o false, direcciones, [o], {o}, [], 2⟩ :=
    (Except.ok.injEq _ _ ▸ hst).symm
  subst hsteq
  refine ⟨h3.1, h3.2, dfsLoopF_inv g f c _ _ (dfsInv_init o ho), ?_, o, ?_, ho, ho1, ho2, ho3, ho4⟩
  · exact dfsLoopF_pila_nil g f c _ _ (dfsMeasure_init o 2 ho)
  · exact (dfsLoopF_mono g f c _ _).2 o (Finset.mem_singleton_self o)

/-- When at least one dimension is at least 5, the DFS carves a second
cell in its very first iteration. -/
lemma genDfs_two_cells (g : Nat → Nat) (f c : ℤ) (st : DState)
    (hst : genDfs g f c = .ok st) (h5 : 5 ≤ f ∨ 5 ≤ c) :
    ∃ a b : Pos, a ∈ st.vis ∧ b ∈ st.vis ∧ a ≠ b := by
  obtain ⟨h3f, h3c, _, _, _⟩ := genDfs_post g f c st hst
  obtain ⟨o, ho, ho1, ho2, ho3, ho4, hok⟩ := genDfs_ok g f c h3f h3c
  rw [hok] at hst
  have hsteq : st = dfsLoopF g f c (dfsFuel f c)
      ⟨mset allWalls o false, direcciones, [o], {o}, [], 2⟩ :=
    (Except.ok.injEq _ _ ▸ hst).symm
  subst hsteq
  obtain ⟨n, hn⟩ : ∃ n, dfsFuel f c = n + 1 :=
    ⟨2 * ((f - 2).toNat * (c - 2).toNat) + 1, rfl⟩
  set st0 : DState := ⟨mset allWalls o false, direcciones, [o], {o}, [], 2⟩ with hst0
  have hpila : st0.pila = [o] := rfl
  obtain ⟨hoa, hob, hoc, hod⟩ := ho
  have hex : ∃ d ∈ direcciones, InteriorP f c (o.1 + d.1, o.2 + d.2) ∧
      (o.1 + d.1, o.2 + d.2) ∉ st0.vis := by
    rcases h5 with h5f | h5c
    · rcases Classical.em (o.1 + 2 < f - 1) with hup | hup
      · refine ⟨(2, 0), by simp [direcciones], ⟨by dsimp only; omega, by dsimp only; omega,
          by dsimp only; omega, by dsimp only; omega⟩, ?_⟩
        simp only [hst0, Finset.mem_singleton]
        intro hc
        have := congrArg Prod.fst hc
        dsimp only at this
        omega
      · refine ⟨(-2, 0), by simp [direcciones], ⟨by dsimp only; omega, by dsimp only; omega,
          by dsimp only; omega, by dsimp only; omega⟩, ?_⟩
        simp only [hst0, Finset.mem_singleton]
        intro hc
        have := congrArg Prod.fst hc
        dsimp only at this
        omega
    · rcases Classical.em (o.2 + 2 < c - 1) with hup | hup
      · refine ⟨(0, 2), by simp [direcciones], ⟨by dsimp only; omega, by dsimp only; omega,
          by dsimp only; omega, by dsimp only; omega⟩, ?_⟩
        simp only [hst0, Finset.mem_singleton]
        intro hc
        have := congrArg Prod.snd hc
        dsimp only at this
        omega
      · refine ⟨(0, -2), by simp [direcciones], ⟨by dsimp only; omega, by dsimp only; omega,
          by dsimp only; omega, by dsimp only; omega⟩, ?_⟩
        simp only [hst0, Finset.mem_singleton]
        intro hc
        have := congrArg Prod.snd hc
        dsimp only at this
        omega
  rcases hv : vecinosOf f c st0.vis o (pyShuffle g st0.k st0.dirs).1 with _ | ⟨v, vtl⟩
  · exfalso
    obtain ⟨d, hd, hint, hvis⟩ := hex
    have hdperm : d ∈ (pyShuffle g st0.k st0.dirs).1 := by
      refine ((pyShuffle_perm g st0.k st0.dirs).mem_iff).2 ?_
      show d ∈ st0.dirs
      rw [hst0]
      exact hd
    exact hvis (vecinosOf_eq_nil.1 hv d hdperm hint)
  · rw [hn, dfsLoopF_cons_cons g f c n st0 o [] v vtl hpila hv]
    have hvmem : v ∈ vecinosOf f c st0.vis o (pyShuffle g st0.k st0.dirs).1 := by
      rw [hv]
      exact List.mem_cons_self v vtl
    obtain ⟨d, hd, hint, hvis, hveq⟩ := mem_vecinosOf.1 hvmem
    subst hveq
    dsimp only
    have hmono := dfsLoopF_mono g f c n
      ⟨mset (mset st0.m (o.1 + d.1 / 2, o.2 + d.2 / 2) false)
          (o.1 + d.1, o.2 + d.2) false,
        (pyShuffle g st0.k st0.dirs).1, (o.1 + d.1, o.2 + d.2) :: o :: [],
        insert (o.1 + d.1, o.2 + d.2) st0.vis,
        if vtl = [] then st0.bifs else st0.bifs ++ [(o, vtl)],
        (pyShuffle g st0.k st0.dirs).2⟩
    refine ⟨(o.1 + d.1, o.2 + d.2), o, ?_, ?_, ?_⟩
    · exact hmono.2 _ (Finset.mem_insert_self _ _)
    · refine hmono.2 o (Finset.mem_insert_of_mem ?_)
      show o ∈ st0.vis
      rw [hst0]
      exact Finset.mem_singleton_self o
    · intro hc
      apply hvis
      rw [hc]
      show o ∈ st0.vis
      rw [hst0]
      exact Finset.mem_singleton_self o

/-- Once the stack is empty, the visited set is closed under the four
step-2 moves into the interior. -/
lemma dfsInv_closed_final {f c : ℤ} {st : DState} (inv : DfsInv f c st)
    (hpila : st.pila = []) :
    ∀ p ∈ st.vis, ∀ d ∈ direcciones, InteriorP f c (p.1 + d.1, p.2 + d.2) →
      (p.1 + d.1, p.2 + d.2) ∈ st.vis := by
  intro p hp
  exact inv.closed p hp (by rw [hpila]; exact List.not_mem_nil p)

/-- Closure plus a visited odd origin forces the whole odd interior
lattice to be visited: the DFS reaches every carving room. -/
lemma vis_complete {f c : ℤ} {st : DState} (inv : DfsInv f c st)
    (hpila : st.pila = []) {o : Pos} (ho : o ∈ st.vis)
    (hoi : InteriorP f c o) (ho1 : o.1 % 2 = 1) (ho2 : o.2 % 2 = 1) :
    ∀ q : Pos, InteriorP f c q → q.1 % 2 = 1 → q.2 % 2 = 1 → q ∈ st.vis := by
  have hcl := dfsInv_closed_final inv hpila
  obtain ⟨hoa, hob, hoc, hod⟩ := hoi
  have hrow : ∀ (n : Nat) (r : ℤ), (r - o.1).natAbs = n → 1 ≤ r → r < f - 1 →
      r % 2 = 1 → (r, o.2) ∈ st.vis := by
    intro n
    induction n using Nat.strong_induction_on with
    | _ n ih =>
      intro r hrn hr1 hr2 hr3
      by_cases hro : r = o.1
      · have : (r, o.2) = o := by
          rw [hro]
        rw [this]
        exact ho
      · by_cases hlt : r < o.1
        · have h1 : ((r + 2) - o.1).natAbs < n := by omega
          have h2 : (r + 2, o.2) ∈ st.vis :=
            ih _ h1 (r + 2) rfl (by omega) (by omega) (by omega)
          have h3 := hcl (r + 2, o.2) h2 (-2, 0) (by simp [direcciones])
            (by exact ⟨by dsimp only; omega, by dsimp only; omega,
              by dsimp only; omega, by dsimp only; omega⟩)
          have h4 : ((r + 2 : ℤ) + -2, o.2 + 0) = ((r, o.2) : Pos) := by
            simp only [Prod.mk.injEq]
            omega
          rw [← h4]
          exact h3
        · have h1 : ((r - 2) - o.1).natAbs < n := by omega
          have h2 : (r - 2, o.2) ∈ st.vis :=
            ih _ h1 (r - 2) rfl (by omega) (by omega) (by omega)
          have h3 := hcl (r - 2, o.2) h2 (2, 0) (by simp [direcciones])
            (by exact ⟨by dsimp only; omega, by dsimp only; omega,
              by dsimp only; omega, by dsimp only; omega⟩)
          have h4 : ((r - 2 : ℤ) + 2, o.2 + 0) = ((r, o.2) : Pos) := by
            simp only [Prod.mk.injEq]
            omega
          rw [← h4]
          exact h3
  intro q hq hq1 hq2
  obtain ⟨hqa, hqb, hqc, hqd⟩ := hq
  have hbase : (q.1, o.2) ∈ st.vis := hrow _ q.1 rfl hqa hqb hq1
  have hcol : ∀ (n : Nat) (s : ℤ), (s - o.2).natAbs = n → 1 ≤ s → s < c - 1 →
      s % 2 = 1 → (q.1, s) ∈ st.vis := by
    intro n
    induction n using Nat.strong_induction_on with
    | _ n ih =>
      intro s hsn hs1 hs2 hs3
      by_cases hso : s = o.2
      · rw [hso]
        exact hbase
      · by_cases hlt : s < o.2
        · have h1 : ((s + 2) - o.2).natAbs < n := by omega
          have h2 : (q.1, s + 2) ∈ st.vis :=
            ih _ h1 (s + 2) rfl (by omega) (by omega) (by omega)
          have h3 := hcl (q.1, s + 2) h2 (0, -2) (by simp [direcciones])
            (by exact ⟨by dsimp only; omega, by dsimp only; omega,
              by dsimp only; omega, by dsimp only; omega⟩)
          have h4 : ((q.1 : ℤ) + 0, (s + 2 : ℤ) + -2) = ((q.1, s) : Pos) := by
            simp only [Prod.mk.injEq]
            omega
          rw [← h4]
          exact h3
        · have h1 : ((s - 2) - o.2).natAbs < n := by omega
          have h2 : (q.1, s - 2) ∈ st.vis :=
            ih _ h1 (s - 2) rfl (by omega) (by omega) (by omega)
          have h3 := hcl (q.1, s - 2) h2 (0, 2) (by simp [direcciones])
            (by exact ⟨by dsimp only; omega, by dsimp only; omega,
              by dsimp only; omega, by dsimp only; omega⟩)
          have h4 : ((q.1 : ℤ) + 0, (s - 2 : ℤ) + 2) = ((q.1, s) : Pos) := by
            simp only [Prod.mk.injEq]
            omega
          rw [← h4]
          exact h3
  have := hcol _ q.2 rfl hqc hqd hq2
  simpa using this

/-! The complexity-injection stage of a completed run never carves:
after the DFS loop finishes, every recorded branch neighbour has been
visited, so the guard `(nx, ny) not in visitadas` always fails. -/

lemma foldl_procesarBif_noop (g : Nat → Nat) (f c : ℤ) :
    ∀ (L : List Bif) (m : Mat) (vis : Finset Pos) (k : Nat),
      (∀ b ∈ L, ∀ v ∈ b.2, (v.1, v.2.1) ∈ vis) →
      L.foldl (procesarBif g f c) (m, vis, k) = (m, vis, k) := by
  intro L
  induction L with
  | nil => intro m vis k _; rfl
  | cons b t ih =>
    intro m vis k h
    have hstep : procesarBif g f c (m, vis, k) b = (m, vis, k) := by
      rw [procesarBif]
      rcases hb : b.2 with _ | ⟨v, vt⟩
      · rfl
      · have hv : (v.1, v.2.1) ∈ vis :=
          h b (List.mem_cons_self b t) v (by rw [hb]; exact List.mem_cons_self v vt)
        dsimp only
        rw [if_pos hv]
    rw [List.foldl_cons, hstep]
    exact ih m vis k (fun b2 hb2 => h b2 (List.mem_cons_of_mem b hb2))

lemma agregarComplejidad_noop (g : Nat → Nat) (f c : ℤ) (k : Nat) (m : Mat)
    (vis : Finset Pos) (bifs : List Bif) (factor : ℚ)
    (h : ∀ b ∈ bifs, ∀ v ∈ b.2, (v.1, v.2.1) ∈ vis) :
    agregarComplejidad g f c k m vis bifs factor = (m, vis, k + bifs.length) := by
  rw [agregarComplejidad]
  have hperm := pyShuffle_perm g k bifs
  have htake : ∀ b ∈ (pyShuffle g k bifs).1.take (processedCount factor bifs.length),
      ∀ v ∈ b.2, (v.1, v.2.1) ∈ vis := by
    intro b hb
    exact h b (hperm.mem_iff.1 (List.mem_of_mem_take hb))
  rw [foldl_procesarBif_noop g f c _ m vis _ htake, pyShuffle_snd]

/-- In every successful run, the complexity stage leaves the matrix,
the visited set and nothing but the draw counter changed. -/
lemma genComp_eq (g : Nat → Nat) (f c : ℤ) (cpl : ℚ) (st : DState)
    (hst : genDfs g f c = .ok st) :
    agregarComplejidad g f c st.k st.m st.vis st.bifs (factorRamificacion cpl) =
      (st.m, st.vis, st.k + st.bifs.length) := by
  obtain ⟨_, _, inv, hpila, _⟩ := genDfs_post g f c st hst
  refine agregarComplejidad_noop g f c st.k st.m st.vis st.bifs _ ?_
  intro b hb v hv
  obtain ⟨hb1, hb2⟩ := inv.bifsOk b hb
  obtain ⟨d, hd, he1, he2, he3⟩ := hb2 v hv
  have := dfsInv_closed_final inv hpila b.1 hb1 d hd (by rw [← he1, ← he2]; exact he3)
  rw [← he1, ← he2] at this
  simpa using this

/-! Invariants through the cycle-injection stage. -/

lemma ciclosPaso_cases (uq : Nat → ℚ) (prob : ℚ) (st : Mat × Nat) (p : Pos) :
    (ciclosPaso uq prob st p).1 = st.1 ∨
      ((ciclosPaso uq prob st p).1 = mset st.1 p false ∧
        ((st.1 (p.1 - 1, p.2) = false ∧ st.1 (p.1 + 1, p.2) = false) ∨
         (st.1 (p.1, p.2 - 1) = false ∧ st.1 (p.1, p.2 + 1) = false))) := by
  rw [ciclosPaso]
  by_cases h1 : st.1 p = true
  · rw [if_pos h1]
    by_cases h2 : (st.1 (p.1 - 1, p.2) = false ∧ st.1 (p.1 + 1, p.2) = false) ∨
        (st.1 (p.1, p.2 - 1) = false ∧ st.1 (p.1, p.2 + 1) = false)
    · rw [if_pos h2]
      by_cases h3 : uq st.2 < prob
      · rw [if_pos h3]
        exact Or.inr ⟨rfl, h2⟩
      · rw [if_neg h3]
        exact Or.inl rfl
    · rw [if_neg h2]
      exact Or.inl rfl
  · rw [if_neg h1]
    exact Or.inl rfl

lemma crearCiclos_foldl_inv (uq : Nat → ℚ) (f c : ℤ) (prob : ℚ) :
    ∀ (L : List Pos) (m : Mat) (k : Nat), (∀ p ∈ L, InteriorP f c p) →
      Conn m f c → (∀ p, ¬ InteriorP f c p → m p = true) →
      Conn (L.foldl (ciclosPaso uq prob) (m, k)).1 f c ∧
      (∀ p, ¬ InteriorP f c p → (L.foldl (ciclosPaso uq prob) (m, k)).1 p = true) ∧
      (∀ p, m p = false → (L.foldl (ciclosPaso uq prob) (m, k)).1 p = false) := by
  intro L
  induction L with
  | nil => intro m k _ hConn hOut; exact ⟨hConn, hOut, fun p h => h⟩
  | cons q t ih =>
    intro m k hmem hConn hOut
    have hqint : InteriorP f c q := hmem q (List.mem_cons_self q t)
    rw [List.foldl_cons]
    have hstep := ciclosPaso_cases uq prob (m, k) q
    rcases hstep with heq | ⟨heq, hqual⟩
    · obtain ⟨ih1, ih2, ih3⟩ := ih (ciclosPaso uq prob (m, k) q).1
        (ciclosPaso uq prob (m, k) q).2
        (fun p hp => hmem p (List.mem_cons_of_mem q hp))
        (by rw [heq]; exact hConn) (by rw [heq]; exact hOut)
      refine ⟨?_, ?_, ?_⟩
      · exact ih1
      · exact ih2
      · intro p hp
        refine ih3 p ?_
        rw [heq]
        exact hp
    · have hConn2 : Conn (ciclosPaso uq prob (m, k) q).1 f c := by
        rw [heq]
        rcases hqual with ⟨hq1, _⟩ | ⟨hq1, _⟩
        · refine conn_mset hConn (interior_inBounds hqint) ?_ hq1 ?_
          · obtain ⟨a1, a2, a3, a4⟩ := hqint
            exact ⟨by omega, by omega, by omega, by omega⟩
          · unfold Adj
            omega
        · refine conn_mset hConn (interior_inBounds hqint) ?_ hq1 ?_
          · obtain ⟨a1, a2, a3, a4⟩ := hqint
            exact ⟨by omega, by omega, by omega, by omega⟩
          · unfold Adj
            omega
      have hOut2 : ∀ p, ¬ InteriorP f c p → (ciclosPaso uq prob (m, k) q).1 p = true := by
        intro p hp
        rw [heq, mset_apply_ne _ _ _ _ (fun hc => hp (by rw [hc]; exact hqint))]
        exact hOut p hp
      obtain ⟨ih1, ih2, ih3⟩ := ih (ciclosPaso uq prob (m, k) q).1
        (ciclosPaso uq prob (m, k) q).2
        (fun p hp => hmem p (List.mem_cons_of_mem q hp)) hConn2 hOut2
      refine ⟨ih1, ih2, ?_⟩
      intro p hp
      refine ih3 p ?_
      rw [heq]
      exact mset_preserves_false _ _ _ hp

lemma crearCiclos_inv (uq : Nat → ℚ) (f c : ℤ) (m : Mat) (k : Nat) (prob : ℚ)
    (hConn : Conn m f c) (hOut : ∀ p, ¬ InteriorP f c p → m p = true) :
    Conn (crearCiclos uq f c m k prob).1 f c ∧
    (∀ p, ¬ InteriorP f c p → (crearCiclos uq f c m k prob).1 p = true) ∧
    (∀ p, m p = false → (crearCiclos uq f c m k prob).1 p = false) := by
  refine crearCiclos_foldl_inv uq f c prob (ciclosCells f c) m k ?_ hConn hOut
  intro p hp
  obtain ⟨h1, h2, _, h4, h5, _⟩ := mem_ciclosCells.1 hp
  exact ⟨by omega, by omega, by omega, by omega⟩

/-! Lemmas about endpoint selection. -/

lemma mem_caminosOf {m : Mat} {f c : ℤ} {p : Pos} :
    p ∈ caminosOf m f c ↔ InteriorP f c p ∧ m p = false := by
  rcases p with ⟨i, j⟩
  rw [caminosOf, List.mem_flatMap]
  constructor
  · rintro ⟨a, ha, hin⟩
    rw [List.mem_filterMap] at hin
    obtain ⟨b, hb, hsome⟩ := hin
    by_cases hm : m (a, b) = false
    · rw [if_pos hm] at hsome
      have heq : ((a, b) : Pos) = (i, j) := Option.some.injEq _ _ ▸ hsome
      obtain ⟨rfl, rfl⟩ : a = i ∧ b = j := by
        refine ⟨congrArg Prod.fst heq, congrArg Prod.snd heq⟩
      rw [mem_pyRange] at ha hb
      exact ⟨⟨ha.1, by omega, hb.1, by omega⟩, hm⟩
    · rw [if_neg hm] at hsome
      cases hsome
  · rintro ⟨⟨h1, h2, h3, h4⟩, hm⟩
    refine ⟨i, mem_pyRange.2 ⟨h1, by omega⟩, ?_⟩
    rw [List.mem_filterMap]
    exact ⟨j, mem_pyRange.2 ⟨h3, by omega⟩, by rw [if_pos hm]⟩

lemma elegirInicio_ne_nil {caminos : List Pos} {mf mc : ℤ}
    (h : caminos ≠ []) : elegirInicio caminos mf mc ≠ [] := by
  rw [elegirInicio]
  split_ifs with h1 h2
  all_goals first | exact h | assumption

lemma elegirInicio_subset {caminos : List Pos} {mf mc : ℤ} :
    ∀ q ∈ elegirInicio caminos mf mc, q ∈ caminos := by
  intro q hq
  rw [elegirInicio] at hq
  split_ifs at hq
  all_goals first | exact hq | exact (List.mem_filter.1 hq).1

lemma elegirInicio_left {caminos : List Pos} {mf mc : ℤ}
    (hex : ∃ q ∈ caminos, q.2 < mc) :
    ∀ q ∈ elegirInicio caminos mf mc, q.2 < mc := by
  intro q hq
  obtain ⟨w, hw1, hw2⟩ := hex
  have hne : caminos.filter (fun q => decide (q.2 < mc)) ≠ [] :=
    List.ne_nil_of_mem (List.mem_filter.2 ⟨hw1, by simpa using hw2⟩)
  rw [elegirInicio] at hq
  split_ifs at hq
  all_goals have h3 := (List.mem_filter.1 hq).2
  all_goals simp only [decide_eq_true_eq] at h3
  all_goals first | exact h3 | exact h3.2

lemma elegirMeta_subset {caminos : List Pos} {f c mf mc : ℤ} {inicio : Pos} :
    ∀ q ∈ elegirMeta caminos f c mf mc inicio, q ∈ caminos := by
  intro q hq
  rw [elegirMeta] at hq
  split_ifs at hq
  all_goals exact (List.mem_filter.1 hq).1

lemma elegirMeta_ne {caminos : List Pos} {f c mf mc : ℤ} {inicio : Pos}
    (h3f : 3 ≤ f) :
    ∀ q ∈ elegirMeta caminos f c mf mc inicio, q ≠ inicio := by
  have hmax : 1 ≤ max f c / 2 := by
    have h1 : 3 ≤ max f c := le_trans h3f (le_max_left f c)
    omega
  intro q hq
  rw [elegirMeta] at hq
  split_ifs at hq
  all_goals have h3 := (List.mem_filter.1 hq).2
  all_goals simp only [decide_eq_true_eq] at h3
  · exact h3
  · exact h3.2
  · intro hc
    subst hc
    simp only [sub_self, abs_zero, add_zero] at h3
    omega

lemma elegirMeta_ne_nil_of_other {caminos : List Pos} {f c mf mc : ℤ}
    {inicio w : Pos} (hw : w ∈ caminos) (hwne : w ≠ inicio) :
    elegirMeta caminos f c mf mc inicio ≠ [] := by
  rw [elegirMeta]
  split_ifs with h1 h2
  · exact List.ne_nil_of_mem (List.mem_filter.2 ⟨hw, by simpa using hwne⟩)
  · exact h2
  · exact h1

lemma elegirMeta_right {caminos : List Pos} {f c mf mc : ℤ} {inicio w : Pos}
    (hw : w ∈ caminos) (hw2 : mc ≤ w.2) (hwne : w ≠ inicio) :
    ∀ q ∈ elegirMeta caminos f c mf mc inicio, mc ≤ q.2 := by
  have hne : caminos.filter (fun q => decide (mc ≤ q.2 ∧ q ≠ inicio)) ≠ [] :=
    List.ne_nil_of_mem (List.mem_filter.2 ⟨hw, by simp [hw2, hwne]⟩)
  intro q hq
  rw [elegirMeta] at hq
  split_ifs at hq
  all_goals have h3 := (List.mem_filter.1 hq).2
  all_goals simp only [decide_eq_true_eq] at h3
  all_goals first | exact h3.1 | exact h3.2.1

/-! Branch equations and postconditions for `establecer`. -/

lemma establecer_nil {f c : ℤ} {m : Mat} (h : caminosOf m f c = []) :
    establecer f c m =
      .ok (mset (mset m (1, 1) false) (f - 2, c - 2) false, (1, 1), (f - 2, c - 2)) := by
  rw [establecer, h]

lemma establecer_cons {f c : ℤ} {m : Mat} {p0 : Pos} {ps : List Pos}
    (h : caminosOf m f c = p0 :: ps) {x : Pos} {xs : List Pos}
    (hci : elegirInicio (p0 :: ps) (f / 2) (c / 2) = x :: xs) :
    (elegirMeta (p0 :: ps) f c (f / 2) (c / 2) (pyMinBy (fun q => q.1 + q.2) x xs) = [] →
      establecer f c m = .ok (mset m (f - 2, c - 2) false,
        pyMinBy (fun q => q.1 + q.2) x xs, (f - 2, c - 2))) ∧
    (∀ y ys, elegirMeta (p0 :: ps) f c (f / 2) (c / 2)
        (pyMinBy (fun q => q.1 + q.2) x xs) = y :: ys →
      establecer f c m = .ok
        (mset (mset m (pyMinBy (fun q => q.1 + q.2) x xs) false)
          (pyMaxBy (fun q => (f - q.1 - 1) + (c - q.2 - 1)) y ys) false,
          pyMinBy (fun q => q.1 + q.2) x xs,
          pyMaxBy (fun q => (f - q.1 - 1) + (c - q.2 - 1)) y ys)) := by
  constructor
  · intro hm
    rw [establecer, h]
    dsimp only
    rw [hci]
    dsimp only
    rw [hm]
  · intro y ys hm
    rw [establecer, h]
    dsimp only
    rw [hci]
    dsimp only
    rw [hm]

/-- Endpoint selection never raises: the fallback chains are nonempty
whenever the path-cell list is. -/
lemma establecer_ok (f c : ℤ) (m : Mat) :
    ∃ r, establecer f c m = .ok r := by
  rcases hcam : caminosOf m f c with _ | ⟨p0, ps⟩
  · exact ⟨_, establecer_nil hcam⟩
  · have hne := @elegirInicio_ne_nil (p0 :: ps) (f / 2) (c / 2)
      (List.cons_ne_nil p0 ps)
    rcases hci : elegirInicio (p0 :: ps) (f / 2) (c / 2) with _ | ⟨x, xs⟩
    · exact absurd hci hne
    · rcases hm : elegirMeta (p0 :: ps) f c (f / 2) (c / 2)
          (pyMinBy (fun q => q.1 + q.2) x xs) with _ | ⟨y, ys⟩
      · exact ⟨_, (establecer_cons hcam hci).1 hm⟩
      · exact ⟨_, (establecer_cons hcam hci).2 y ys hm⟩

/-- Postconditions of endpoint selection used by every later stage. -/
lemma establecer_spec (f c : ℤ) (m : Mat) (m2 : Mat) (inicio meta : Pos)
    (h3f : 3 ≤ f) (h3c : 3 ≤ c)
    (h : establecer f c m = .ok (m2, inicio, meta)) :
    InteriorP f c inicio ∧ InteriorP f c meta ∧
      m2 inicio = false ∧ m2 meta = false ∧
      (∀ p, m p = false → m2 p = false) ∧
      (∀ p, ¬ InteriorP f c p → m2 p = m p) := by
  rcases hcam : caminosOf m f c with _ | ⟨p0, ps⟩
  · rw [establecer_nil hcam] at h
    obtain ⟨h1, h2, h3⟩ : mset (mset m (1, 1) false) (f - 2, c - 2) false = m2 ∧
        ((1 : ℤ), (1 : ℤ)) = inicio ∧ ((f - 2, c - 2) : Pos) = meta := by
      have := Except.ok.injEq _ _ ▸ h
      exact ⟨congrArg Prod.fst this, congrArg (fun r => r.2.1) this,
        congrArg (fun r => r.2.2) this⟩
    subst h1
    subst h2
    subst h3
    refine ⟨⟨by omega, by omega, by omega, by omega⟩,
      ⟨by omega, by omega, by omega, by omega⟩, ?_, ?_, ?_, ?_⟩
    · exact mset_preserves_false _ _ _ (mset_apply_self _ _ _)
    · exact mset_apply_self _ _ _
    · intro p hp
      exact mset_preserves_false _ _ _ (mset_preserves_false _ _ _ hp)
    · intro p hp
      have hp1 : p ≠ ((f - 2, c - 2) : Pos) := by
        intro hc
        exact hp (by rw [hc]; exact ⟨by omega, by omega, by omega, by omega⟩)
      have hp2 : p ≠ ((1, 1) : Pos) := by
        intro hc
        exact hp (by rw [hc]; exact ⟨by omega, by omega, by omega, by omega⟩)
      rw [mset_apply_ne _ _ _ _ hp1, mset_apply_ne _ _ _ _ hp2]
  · have hne := @elegirInicio_ne_nil (p0 :: ps) (f / 2) (c / 2)
      (List.cons_ne_nil p0 ps)
    rcases hci : elegirInicio (p0 :: ps) (f / 2) (c / 2) with _ | ⟨x, xs⟩
    · exact absurd hci hne
    · have hinicamino : pyMinBy (fun q => q.1 + q.2) x xs ∈ caminosOf m f c := by
        rw [hcam]
        exact elegirInicio_subset _ (hci ▸ pyMinBy_mem _ x xs)
      obtain ⟨hiniInt, hiniPath⟩ := mem_caminosOf.1 hinicamino
      rcases hm : elegirMeta (p0 :: ps) f c (f / 2) (c / 2)
          (pyMinBy (fun q => q.1 + q.2) x xs) with _ | ⟨y, ys⟩
      · rw [(establecer_cons hcam hci).1 hm] at h
        obtain ⟨h1, h2, h3⟩ : mset m (f - 2, c - 2) false = m2 ∧
            pyMinBy (fun q => q.1 + q.2) x xs = inicio ∧
            ((f - 2, c - 2) : Pos) = meta := by
          have := Except.ok.injEq _ _ ▸ h
          exact ⟨congrArg Prod.fst this, congrArg (fun r => r.2.1) this,
            congrArg (fun r => r.2.2) this⟩
        subst h1
        subst h2
        subst h3
        refine ⟨hiniInt, ⟨by omega, by omega, by omega, by omega⟩,
          mset_preserves_false _ _ _ hiniPath, mset_apply_self _ _ _,
          fun p hp => mset_preserves_false _ _ _ hp, ?_⟩
        intro p hp
        have hp1 : p ≠ ((f - 2, c - 2) : Pos) := by
          intro hc
          exact hp (by rw [hc]; exact ⟨by omega, by omega, by omega, by omega⟩)
        rw [mset_apply_ne _ _ _ _ hp1]
      · rw [(establecer_cons hcam hci).2 y ys hm] at h
        have hmetacamino : pyMaxBy (fun q => (f - q.1 - 1) + (c - q.2 - 1)) y ys ∈
            caminosOf m f c := by
          rw [hcam]
          exact elegirMeta_subset _ (hm ▸ pyMaxBy_mem _ y ys)
        obtain ⟨hmetaInt, hmetaPath⟩ := mem_caminosOf.1 hmetacamino
        obtain ⟨h1, h2, h3⟩ :
            mset (mset m (pyMinBy (fun q => q.1 + q.2) x xs) false)
              (pyMaxBy (fun q => (f - q.1 - 1) + (c - q.2 - 1)) y ys) false = m2 ∧
            pyMinBy (fun q => q.1 + q.2) x xs = inicio ∧
            pyMaxBy (fun q => (f - q.1 - 1) + (c - q.2 - 1)) y ys = meta := by
          have := Except.ok.injEq _ _ ▸ h
          exact ⟨congrArg Prod.fst this, congrArg (fun r => r.2.1) this,
            congrArg (fun r => r.2.2) this⟩
        subst h1
        subst h2
        subst h3
        refine ⟨hiniInt, hmetaInt,
          mset_preserves_false _ _ _ (mset_preserves_false _ _ _ hiniPath),
          mset_apply_self _ _ _,
          fun p hp => mset_preserves_false _ _ _ (mset_preserves_false _ _ _ hp), ?_⟩
        intro p hp
        have hp1 : p ≠ pyMaxBy (fun q => (f - q.1 - 1) + (c - q.2 - 1)) y ys := by
          intro hc
          exact hp (by rw [hc]; exact hmetaInt)
        have hp2 : p ≠ pyMinBy (fun q => q.1 + q.2) x xs := by
          intro hc
          exact hp (by rw [hc]; exact hiniInt)
        rw [mset_apply_ne _ _ _ _ hp1, mset_apply_ne _ _ _ _ hp2]

/-- With two distinct path cells available, endpoint selection takes
the main branch, chooses two distinct path cells and leaves the matrix
unchanged (its two final writes hit cells that are already paths). -/
lemma establecer_of_two (f c : ℤ) (m : Mat) (a b : Pos) (h3f : 3 ≤ f)
    (ha : a ∈ caminosOf m f c) (hb : b ∈ caminosOf m f c) (hab : a ≠ b) :
    ∃ inicio meta, establecer f c m = .ok (m, inicio, meta) ∧
      inicio ∈ caminosOf m f c ∧ meta ∈ caminosOf m f c ∧ meta ≠ inicio := by
  rcases hcam : caminosOf m f c with _ | ⟨p0, ps⟩
  · rw [hcam] at ha
    cases ha
  · have hne := @elegirInicio_ne_nil (p0 :: ps) (f / 2) (c / 2)
      (List.cons_ne_nil p0 ps)
    rcases hci : elegirInicio (p0 :: ps) (f / 2) (c / 2) with _ | ⟨x, xs⟩
    · exact absurd hci hne
    · have hinicamino : pyMinBy (fun q => q.1 + q.2) x xs ∈ caminosOf m f c := by
        rw [hcam]
        exact elegirInicio_subset _ (hci ▸ pyMinBy_mem _ x xs)
      have hiniPath := (mem_caminosOf.1 hinicamino).2
      have hw : ∃ w ∈ (p0 :: ps : List Pos), w ≠ pyMinBy (fun q => q.1 + q.2) x xs := by
        by_cases hcase : a = pyMinBy (fun q => q.1 + q.2) x xs
        · exact ⟨b, hcam ▸ hb, by rw [← hcase]; exact fun hc => hab hc.symm⟩
        · exact ⟨a, hcam ▸ ha, hcase⟩
      obtain ⟨w, hw1, hw2⟩ := hw
      have hmne := @elegirMeta_ne_nil_of_other (p0 :: ps) f c (f / 2) (c / 2)
        (pyMinBy (fun q => q.1 + q.2) x xs) w hw1 hw2
      rcases hm : elegirMeta (p0 :: ps) f c (f / 2) (c / 2)
          (pyMinBy (fun q => q.1 + q.2) x xs) with _ | ⟨y, ys⟩
      · exact absurd hm hmne
      · have hmetamem : pyMaxBy (fun q => (f - q.1 - 1) + (c - q.2 - 1)) y ys ∈
            elegirMeta (p0 :: ps) f c (f / 2) (c / 2)
              (pyMinBy (fun q => q.1 + q.2) x xs) := hm ▸ pyMaxBy_mem _ y ys
        have hmetacamino : pyMaxBy (fun q => (f - q.1 - 1) + (c - q.2 - 1)) y ys ∈
            caminosOf m f c := by
          rw [hcam]
          exact elegirMeta_subset _ hmetamem
        have hmetaPath := (mem_caminosOf.1 hmetacamino).2
        have hmatrix : mset (mset m (pyMinBy (fun q => q.1 + q.2) x xs) false)
            (pyMaxBy (fun q => (f - q.1 - 1) + (c - q.2 - 1)) y ys) false = m := by
          rw [mset_false_of_false m _ hiniPath, mset_false_of_false m _ hmetaPath]
        refine ⟨pyMinBy (fun q => q.1 + q.2) x xs,
          pyMaxBy (fun q => (f - q.1 - 1) + (c - q.2 - 1)) y ys, ?_,
          hcam ▸ hinicamino, hcam ▸ hmetacamino, elegirMeta_ne h3f _ hmetamem⟩
        rw [(establecer_cons hcam hci).2 y ys hm, hmatrix]

/-! The L-shaped repair corridor of `_crear_camino`. -/

lemma carveRowGo_mono (x ty : ℤ) :
    ∀ (n : Nat) (y : ℤ) (m : Mat) (p : Pos), m p = false →
      carveRowGo x ty n y m p = false := by
  intro n
  induction n with
  | zero => intro y m p h; exact h
  | succ k ih =>
    intro y m p h
    exact ih _ _ p (mset_preserves_false _ _ _ h)

lemma carveColGo_mono (y tx : ℤ) :
    ∀ (n : Nat) (x : ℤ) (m : Mat) (p : Pos), m p = false →
      carveColGo y tx n x m p = false := by
  intro n
  induction n with
  | zero => intro x m p h; exact h
  | succ k ih =>
    intro x m p h
    exact ih _ _ p (mset_preserves_false _ _ _ h)

lemma carveRowGo_outside (x ty : ℤ) :
    ∀ (n : Nat) (y : ℤ) (m : Mat) (p : Pos), n = (ty - y).natAbs →
      (p.1 ≠ x ∨ p.2 < min y ty ∨ max y ty < p.2) →
      carveRowGo x ty n y m p = m p := by
  intro n
  induction n with
  | zero => intro y m p _ _; rfl
  | succ k ih =>
    intro y m p hn hp
    by_cases hlt : y < ty
    · rw [carveRowGo]
      simp only [if_pos hlt]
      have hp2 : p.1 ≠ x ∨ p.2 < min (y + 1) ty ∨ max (y + 1) ty < p.2 := by
        rcases hp with h | h | h
        · exact Or.inl h
        · exact Or.inr (Or.inl (by omega))
        · exact Or.inr (Or.inr (by omega))
      rw [ih (y + 1) _ p (by omega) hp2]
      refine mset_apply_ne _ _ _ _ ?_
      intro hc
      rcases hp with h | h | h
      · exact h (congrArg Prod.fst hc)
      · have h2 := congrArg Prod.snd hc
        dsimp only at h2
        omega
      · have h2 := congrArg Prod.snd hc
        dsimp only at h2
        omega
    · rw [carveRowGo]
      simp only [if_neg hlt]
      have hy : y ≠ ty := by omega
      have hp2 : p.1 ≠ x ∨ p.2 < min (y + -1) ty ∨ max (y + -1) ty < p.2 := by
        rcases hp with h | h | h
        · exact Or.inl h
        · exact Or.inr (Or.inl (by omega))
        · exact Or.inr (Or.inr (by omega))
      rw [ih (y + -1) _ p (by omega) hp2]
      refine mset_apply_ne _ _ _ _ ?_
      intro hc
      rcases hp with h | h | h
      · exact h (congrArg Prod.fst hc)
      · have h2 := congrArg Prod.snd hc
        dsimp only at h2
        omega
      · have h2 := congrArg Prod.snd hc
        dsimp only at h2
        omega

lemma carveColGo_outside (y tx : ℤ) :
    ∀ (n : Nat) (x : ℤ) (m : Mat) (p : Pos), n = (tx - x).natAbs →
      (p.2 ≠ y ∨ p.1 < min x tx ∨ max x tx < p.1) →
      carveColGo y tx n x m p = m p := by
  intro n
  induction n with
  | zero => intro x m p _ _; rfl
  | succ k ih =>
    intro x m p hn hp
    by_cases hlt : x < tx
    · rw [carveColGo]
      simp only [if_pos hlt]
      have hp2 : p.2 ≠ y ∨ p.1 < min (x + 1) tx ∨ max (x + 1) tx < p.1 := by
        rcases hp with h | h | h
        · exact Or.inl h
        · exact Or.inr (Or.inl (by omega))
        · exact Or.inr (Or.inr (by omega))
      rw [ih (x + 1) _ p (by omega) hp2]
      refine mset_apply_ne _ _ _ _ ?_
      intro hc
      rcases hp with h | h | h
      · exact h (congrArg Prod.snd hc)
      · have h2 := congrArg Prod.fst hc
        dsimp only at h2
        omega
      · have h2 := congrArg Prod.fst hc
        dsimp only at h2
        omega
    · rw [carveColGo]
      simp only [if_neg hlt]
      have hy : x ≠ tx := by omega
      have hp2 : p.2 ≠ y ∨ p.1 < min (x + -1) tx ∨ max (x + -1) tx < p.1 := by
        rcases hp with h | h | h
        · exact Or.inl h
        · exact Or.inr (Or.inl (by omega))
        · exact Or.inr (Or.inr (by omega))
      rw [ih (x + -1) _ p (by omega) hp2]
      refine mset_apply_ne _ _ _ _ ?_
      intro hc
      rcases hp with h | h | h
      · exact h (congrArg Prod.snd hc)
      · have h2 := congrArg Prod.fst hc
        dsimp only at h2
        omega
      · have h2 := congrArg Prod.fst hc
        dsimp only at h2
        omega

lemma carveRowGo_carved (x ty : ℤ) :
    ∀ (n : Nat) (y : ℤ) (m : Mat) (z : ℤ), n = (ty - y).natAbs →
      min y ty ≤ z → z ≤ max y ty → z ≠ y →
      carveRowGo x ty n y m (x, z) = false := by
  intro n
  induction n with
  | zero =>
    intro y m z hn h1 h2 h3
    omega
  | succ k ih =>
    intro y m z hn h1 h2 h3
    by_cases hlt : y < ty
    · rw [carveRowGo]
      simp only [if_pos hlt]
      by_cases hz : z = y + 1
      · refine carveRowGo_mono x ty k (y + 1) _ _ ?_
        rw [hz]
        exact mset_apply_self _ _ _
      · exact ih (y + 1) _ z (by omega) (by omega) (by omega) hz
    · rw [carveRowGo]
      simp only [if_neg hlt]
      by_cases hz : z = y - 1
      · refine carveRowGo_mono x ty k (y + -1) _ _ ?_
        have heq : ((x, z) : Pos) = (x, y + -1) := by
          rw [hz, sub_eq_add_neg]
        rw [heq]
        exact mset_apply_self _ _ _
      · exact ih (y + -1) _ z (by omega) (by omega) (by omega) (by omega)

lemma carveColGo_carved (y tx : ℤ) :
    ∀ (n : Nat) (x : ℤ) (m : Mat) (z : ℤ), n = (tx - x).natAbs →
      min x tx ≤ z → z ≤ max x tx → z ≠ x →
      carveColGo y tx n x m (z, y) = false := by
  intro n
  induction n with
  | zero =>
    intro x m z hn h1 h2 h3
    omega
  | succ k ih =>
    intro x m z hn h1 h2 h3
    by_cases hlt : x < tx
    · rw [carveColGo]
      simp only [if_pos hlt]
      by_cases hz : z = x + 1
      · refine carveColGo_mono y tx k (x + 1) _ _ ?_
        rw [hz]
        exact mset_apply_self _ _ _
      · exact ih (x + 1) _ z (by omega) (by omega) (by omega) hz
    · rw [carveColGo]
      simp only [if_neg hlt]
      by_cases hz : z = x - 1
      · refine carveColGo_mono y tx k (x + -1) _ _ ?_
        have heq : ((z, y) : Pos) = (x + -1, y) := by
          rw [hz, sub_eq_add_neg]
        rw [heq]
        exact mset_apply_self _ _ _
      · exact ih (x + -1) _ z (by omega) (by omega) (by omega) (by omega)

lemma reach_row_aux (m : Mat) (f c x : ℤ) :
    ∀ (n : Nat) (y ty : ℤ), n = (ty - y).natAbs →
      (∀ z, min y ty ≤ z → z ≤ max y ty → z ≠ y →
        InBoundsP f c (x, z) ∧ m (x, z) = false) →
      Reach m f c (x, y) (x, ty) := by
  intro n
  induction n with
  | zero =>
    intro y ty hn _
    have heq : y = ty := by omega
    rw [heq]
    exact Relation.ReflTransGen.refl
  | succ k ih =>
    intro y ty hn hseg
    by_cases hlt : y < ty
    · have hstep : Step m f c (x, y) (x, y + 1) := by
        obtain ⟨hb, hp⟩ := hseg (y + 1) (by omega) (by omega) (by omega)
        exact ⟨Or.inr (Or.inr (Or.inl ⟨rfl, rfl⟩)), hb, hp⟩
      refine Relation.ReflTransGen.head hstep ?_
      refine ih (y + 1) ty (by omega) ?_
      intro z h1 h2 h3
      exact hseg z (by omega) (by omega) (by omega)
    · have hne : y ≠ ty := by omega
      have hstep : Step m f c (x, y) (x, y - 1) := by
        obtain ⟨hb, hp⟩ := hseg (y - 1) (by omega) (by omega) (by omega)
        exact ⟨Or.inr (Or.inr (Or.inr ⟨rfl, rfl⟩)), hb, hp⟩
      refine Relation.ReflTransGen.head hstep ?_
      refine ih (y - 1) ty (by omega) ?_
      intro z h1 h2 h3
      exact hseg z (by omega) (by omega) (by omega)

lemma reach_col_aux (m : Mat) (f c y : ℤ) :
    ∀ (n : Nat) (x tx : ℤ), n = (tx - x).natAbs →
      (∀ z, min x tx ≤ z → z ≤ max x tx → z ≠ x →
        InBoundsP f c (z, y) ∧ m (z, y) = false) →
      Reach m f c (x, y) (tx, y) := by
  intro n
  induction n with
  | zero =>
    intro x tx hn _
    have heq : x = tx := by omega
    rw [heq]
    exact Relation.ReflTransGen.refl
  | succ k ih =>
    intro x tx hn hseg
    by_cases hlt : x < tx
    · have hstep : Step m f c (x, y) (x + 1, y) := by
        obtain ⟨hb, hp⟩ := hseg (x + 1) (by omega) (by omega) (by omega)
        exact ⟨Or.inl ⟨rfl, rfl⟩, hb, hp⟩
      refine Relation.ReflTransGen.head hstep ?_
      refine ih (x + 1) tx (by omega) ?_
      intro z h1 h2 h3
      exact hseg z (by omega) (by omega) (by omega)
    · have hne : x ≠ tx := by omega
      have hstep : Step m f c (x, y) (x - 1, y) := by
        obtain ⟨hb, hp⟩ := hseg (x - 1) (by omega) (by omega) (by omega)
        exact ⟨Or.inr (Or.inl ⟨rfl, rfl⟩), hb, hp⟩
      refine Relation.ReflTransGen.head hstep ?_
      refine ih (x - 1) tx (by omega) ?_
      intro z h1 h2 h3
      exact hseg z (by omega) (by omega) (by omega)

/-- The repair corridor really connects start and goal. -/
lemma crearCamino_reach (f c : ℤ) (m : Mat) (s t : Pos)
    (hs : InteriorP f c s) (ht : InteriorP f c t) :
    Reach (crearCamino m s t) f c s t := by
  obtain ⟨hs1, hs2, hs3, hs4⟩ := hs
  obtain ⟨ht1, ht2, ht3, ht4⟩ := ht
  have hrowcells : ∀ z, min s.2 t.2 ≤ z → z ≤ max s.2 t.2 → z ≠ s.2 →
      InBoundsP f c (s.1, z) ∧ crearCamino m s t (s.1, z) = false := by
    intro z h1 h2 h3
    refine ⟨⟨by omega, by omega, by omega, by omega⟩, ?_⟩
    rw [crearCamino]
    exact carveColGo_mono _ _ _ _ _ _
      (carveRowGo_carved s.1 t.2 _ s.2 m z rfl h1 h2 h3)
  have hcolcells : ∀ z, min s.1 t.1 ≤ z → z ≤ max s.1 t.1 → z ≠ s.1 →
      InBoundsP f c (z, t.2) ∧ crearCamino m s t (z, t.2) = false := by
    intro z h1 h2 h3
    refine ⟨⟨by omega, by omega, by omega, by omega⟩, ?_⟩
    rw [crearCamino]
    exact carveColGo_carved t.2 t.1 _ s.1 _ z rfl h1 h2 h3
  have hrow : Reach (crearCamino m s t) f c (s.1, s.2) (s.1, t.2) :=
    reach_row_aux _ f c s.1 _ s.2 t.2 rfl hrowcells
  have hcol : Reach (crearCamino m s t) f c (s.1, t.2) (t.1, t.2) :=
    reach_col_aux _ f c t.2 _ s.1 t.1 rfl hcolcells
  have hst : s = ((s.1, s.2) : Pos) := rfl
  have htt : t = ((t.1, t.2) : Pos) := rfl
  rw [hst, htt]
  exact hrow.trans hcol

/-- The repair corridor writes only to interior cells. -/
lemma crearCamino_outside (f c : ℤ) (m : Mat) (s t : Pos)
    (hs : InteriorP f c s) (ht : InteriorP f c t) :
    ∀ p, ¬ InteriorP f c p → crearCamino m s t p = m p := by
  obtain ⟨hs1, hs2, hs3, hs4⟩ := hs
  obtain ⟨ht1, ht2, ht3, ht4⟩ := ht
  intro p hp
  rw [crearCamino]
  rw [carveColGo_outside t.2 t.1 _ s.1 _ p rfl ?_, carveRowGo_outside s.1 t.2 _ s.2 m p rfl ?_]
  · by_cases h1 : p.1 = s.1
    · refine Or.inr ?_
      by_cases h2 : min s.2 t.2 ≤ p.2 ∧ p.2 ≤ max s.2 t.2
      · exfalso
        exact hp ⟨by omega, by omega, by omega, by omega⟩
      · omega
    · exact Or.inl h1
  · by_cases h1 : p.2 = t.2
    · refine Or.inr ?_
      by_cases h2 : min s.1 t.1 ≤ p.1 ∧ p.1 ≤ max s.1 t.1
      · exfalso
        exact hp ⟨by omega, by omega, by omega, by omega⟩
      · omega
    · exact Or.inl h1

lemma crearCamino_mono (m : Mat) (s t : Pos) :
    ∀ p, m p = false → crearCamino m s t p = false := by
  intro p h
  rw [crearCamino]
  exact carveColGo_mono _ _ _ _ _ _ (carveRowGo_mono _ _ _ _ _ _ h)

/-! The connectivity guarantee stage. -/

lemma garantizar_reach (f c : ℤ) (m : Mat) (s t : Pos)
    (hs : InteriorP f c s) (ht : InteriorP f c t) :
    Reach (garantizar f c m s t) f c s t := by
  rw [garantizar]
  by_cases h : bfsReach m f c s t = true
  · simp only [h, if_true]
    exact bfsReach_iff.1 h
  · simp only [h, if_false]
    exact crearCamino_reach f c m s t hs ht

lemma garantizar_eq_of_conn (f c : ℤ) (m : Mat) (s t : Pos)
    (hConn : Conn m f c) (hsb : InBoundsP f c s) (hs : m s = false)
    (htb : InBoundsP f c t) (ht : m t = false) :
    garantizar f c m s t = m := by
  rw [garantizar]
  have : bfsReach m f c s t = true :=
    bfsReach_iff.2 (hConn s t hsb hs htb ht)
  simp only [this, if_true]

lemma garantizar_outside (f c : ℤ) (m : Mat) (s t : Pos)
    (hs : InteriorP f c s) (ht : InteriorP f c t) :
    ∀ p, ¬ InteriorP f c p → garantizar f c m s t p = m p := by
  intro p hp
  rw [garantizar]
  by_cases h : bfsReach m f c s t = true
  · simp only [h, if_true]
  · simp only [h, if_false]
    exact crearCamino_outside f c m s t hs ht p hp

lemma garantizar_mono (f c : ℤ) (m : Mat) (s t : Pos) :
    ∀ p, m p = false → garantizar f c m s t p = false := by
  intro p h
  rw [garantizar]
  by_cases hb : bfsReach m f c s t = true
  · simp only [hb, if_true]
    exact h
  · simp only [hb, if_false]
    exact crearCamino_mono m s t p h

/-! Composition of the pipeline stages. -/

lemma generarAux_eq (g : Nat → Nat) (uq : Nat → ℚ) (f c : ℤ) (cpl dens : ℚ)
    (st : DState) (hst : genDfs g f c = .ok st) :
    generarAux g uq f c cpl dens =
      establecer f c
        (crearCiclos uq f c st.m (st.k + st.bifs.length) (dens * (15 / 100))).1 := by
  rw [generarAux, hst]
  dsimp only
  rw [genComp_eq g f c cpl st hst]

lemma generarAux_error_iff (g : Nat → Nat) (uq : Nat → ℚ) (f c : ℤ) (cpl dens : ℚ) :
    (∃ r, generarAux g uq f c cpl dens = .ok r) ↔ 3 ≤ f ∧ 3 ≤ c := by
  constructor
  · rintro ⟨r, hr⟩
    rcases hst : genDfs g f c with _ | st
    · rw [generarAux, hst] at hr
      cases hr
    · obtain ⟨h3f, h3c, _⟩ := genDfs_post g f c st hst
      exact ⟨h3f, h3c⟩
  · rintro ⟨h3f, h3c⟩
    rcases hst : genDfs g f c with u | st
    · exfalso
      have := (genDfs_error_iff g f c).1 (by rcases u; exact hst)
      omega
    · rw [generarAux_eq g uq f c cpl dens st hst]
      exact establecer_ok f c _

/-- Postcondition of the pipeline before the connectivity stage. -/
lemma generarAux_post (g : Nat → Nat) (uq : Nat → ℚ) (f c : ℤ) (cpl dens : ℚ)
    (m4 : Mat) (inicio meta : Pos)
    (h : generarAux g uq f c cpl dens = .ok (m4, inicio, meta)) :
    3 ≤ f ∧ 3 ≤ c ∧ InteriorP f c inicio ∧ InteriorP f c meta ∧
      m4 inicio = false ∧ m4 meta = false ∧
      (∀ p, ¬ InteriorP f c p → m4 p = true) := by
  rcases hst : genDfs g f c with _ | st
  · rw [generarAux, hst] at h
    cases h
  · obtain ⟨h3f, h3c, inv, hpila, _⟩ := genDfs_post g f c st hst
    rw [generarAux_eq g uq f c cpl dens st hst] at h
    obtain ⟨hConn3, hOut3, _⟩ := crearCiclos_inv uq f c st.m
      (st.k + st.bifs.length) (dens * (15 / 100)) inv.conn inv.wallOut
    obtain ⟨hIniInt, hMetaInt, hIniPath, hMetaPath, hMono, hOutEq⟩ :=
      establecer_spec f c _ m4 inicio meta h3f h3c h
    refine ⟨h3f, h3c, hIniInt, hMetaInt, hIniPath, hMetaPath, ?_⟩
    intro p hp
    rw [hOutEq p hp]
    exact hOut3 p hp

lemma generar_eq (g : Nat → Nat) (uq : Nat → ℚ) (f c : ℤ) (cpl dens : ℚ)
    (r : Mat × Pos × Pos) (haux : generarAux g uq f c cpl dens = .ok r) :
    generar g uq f c cpl dens =
      .ok (garantizar f c r.1 r.2.1 r.2.2, r.2.1, r.2.2) := by
  rw [generar, haux]

lemma generar_ok_iff (g : Nat → Nat) (uq : Nat → ℚ) (f c : ℤ) (cpl dens : ℚ) :
    (∃ r, generar g uq f c cpl dens = .ok r) ↔ 3 ≤ f ∧ 3 ≤ c := by
  constructor
  · rintro ⟨r, hr⟩
    rcases haux : generarAux g uq f c cpl dens with _ | r2
    · rw [generar, haux] at hr
      cases hr
    · exact (generarAux_error_iff g uq f c cpl dens).1 ⟨r2, haux⟩
  · intro h3
    obtain ⟨r, hr⟩ := (generarAux_error_iff g uq f c cpl dens).2 h3
    exact ⟨_, generar_eq g uq f c cpl dens r hr⟩

/-! Projections of a successful run. -/

lemma gen_proj (g : Nat → Nat) (uq : Nat → ℚ) (f c : ℤ) (cpl dens : ℚ)
    (m4 : Mat) (s t : Pos)
    (haux : generarAux g uq f c cpl dens = .ok (m4, s, t)) :
    genMat g uq f c cpl dens = garantizar f c m4 s t ∧
      genInicio g uq f c cpl dens = s ∧ genMeta g uq f c cpl dens = t ∧
      genPreMat g uq f c cpl dens = m4 := by
  have hgen := generar_eq g uq f c cpl dens (m4, s, t) haux
  rw [genMat, genInicio, genMeta, genPreMat, hgen, haux]
  exact ⟨rfl, rfl, rfl, rfl⟩

/-- C1: for every generated maze (any dimensions at least 3, any tuning
factors, any oracle streams), the goal is reachable from the start
through path cells by four-directional one-cell steps: generation never
yields a maze whose start and goal are disconnected. -/
theorem C1_start_reaches_goal (g : Nat → Nat) (uq : Nat → ℚ) (f c : ℤ)
    (cpl dens : ℚ) (h3f : 3 ≤ f) (h3c : 3 ≤ c) :
    Reach (genMat g uq f c cpl dens) f c
      (genInicio g uq f c cpl dens) (genMeta g uq f c cpl dens) := by
  obtain ⟨⟨m4, s, t⟩, haux⟩ :=
    (generarAux_error_iff g uq f c cpl dens).2 ⟨h3f, h3c⟩
  obtain ⟨hM, hS, hT, _⟩ := gen_proj g uq f c cpl dens m4 s t haux
  obtain ⟨_, _, hsInt, htInt, _⟩ := generarAux_post g uq f c cpl dens m4 s t haux
  rw [hM, hS, hT]
  exact garantizar_reach f c m4 s t hsInt htInt

/-- C1 witness: a concrete 5×5 run with constant streams. -/
theorem C1_start_reaches_goal_witness :
    Reach (genMat (fun _ => 0) (fun _ => 0) 5 5 (1 / 2) (1 / 2)) 5 5
      (genInicio (fun _ => 0) (fun _ => 0) 5 5 (1 / 2) (1 / 2))
      (genMeta (fun _ => 0) (fun _ => 0) 5 5 (1 / 2) (1 / 2)) :=
  C1_start_reaches_goal (fun _ => 0) (fun _ => 0) 5 5 (1 / 2) (1 / 2)
    (by decide) (by decide)

/-- C3: construction succeeds exactly when both dimensions are at least
3; with a smaller dimension the (sole) failure is raised and no maze is
produced, and with valid dimensions no stage can fail. -/
theorem C3_dims_only_failure (g : Nat → Nat) (uq : Nat → ℚ) (f c : ℤ)
    (cpl dens : ℚ) :
    (∃ r, generar g uq f c cpl dens = .ok r) ↔ (3 ≤ f ∧ 3 ≤ c) :=
  generar_ok_iff g uq f c cpl dens

/-- C10: in every generated maze both endpoints are strictly interior
cells. -/
theorem C10_endpoints_interior (g : Nat → Nat) (uq : Nat → ℚ) (f c : ℤ)
    (cpl dens : ℚ) (h3f : 3 ≤ f) (h3c : 3 ≤ c) :
    InteriorP f c (genInicio g uq f c cpl dens) ∧
      InteriorP f c (genMeta g uq f c cpl dens) := by
  obtain ⟨⟨m4, s, t⟩, haux⟩ :=
    (generarAux_error_iff g uq f c cpl dens).2 ⟨h3f, h3c⟩
  obtain ⟨_, hS, hT, _⟩ := gen_proj g uq f c cpl dens m4 s t haux
  obtain ⟨_, _, hsInt, htInt, _⟩ := generarAux_post g uq f c cpl dens m4 s t haux
  rw [hS, hT]
  exact ⟨hsInt, htInt⟩

/-- C10 witness: a concrete 6×7 run. -/
theorem C10_endpoints_interior_witness :
    InteriorP 6 7 (genInicio (fun _ => 0) (fun _ => 0) 6 7 (1 / 2) (1 / 2)) ∧
      InteriorP 6 7 (genMeta (fun _ => 0) (fun _ => 0) 6 7 (1 / 2) (1 / 2)) :=
  C10_endpoints_interior (fun _ => 0) (fun _ => 0) 6 7 (1 / 2) (1 / 2)
    (by decide) (by decide)

/-- C9: every in-range cell on the outer border of a generated maze is
a wall: no stage of generation ever writes outside the interior. -/
theorem C9_border_is_wall (g : Nat → Nat) (uq : Nat → ℚ) (f c : ℤ)
    (cpl dens : ℚ) (h3f : 3 ≤ f) (h3c : 3 ≤ c) (p : Pos)
    (hin : InBoundsP f c p) (hb : BorderP f c p) :
    genMat g uq f c cpl dens p = true := by
  obtain ⟨⟨m4, s, t⟩, haux⟩ :=
    (generarAux_error_iff g uq f c cpl dens).2 ⟨h3f, h3c⟩
  obtain ⟨hM, _, _, _⟩ := gen_proj g uq f c cpl dens m4 s t haux
  obtain ⟨_, _, hsInt, htInt, _, _, hOut⟩ :=
    generarAux_post g uq f c cpl dens m4 s t haux
  have hnint : ¬ InteriorP f c p := by
    obtain ⟨h1, h2, h3, h4⟩ := hin
    rcases hb with h | h | h | h
    all_goals intro hc
    all_goals obtain ⟨k1, k2, k3, k4⟩ := hc
    all_goals omega
  rw [hM, garantizar_outside f c m4 s t hsInt htInt p hnint]
  exact hOut p hnint

/-- C9 witness: the top-left border cell of a concrete 5×5 run. -/
theorem C9_border_is_wall_witness :
    genMat (fun _ => 0) (fun _ => 0) 5 5 (1 / 2) (1 / 2) (0, 3) = true :=
  C9_border_is_wall (fun _ => 0) (fun _ => 0) 5 5 (1 / 2) (1 / 2)
    (by decide) (by decide) (0, 3) (by decide) (Or.inl rfl)

/-! Concrete evaluation of rational arithmetic inside the kernel needs
the core rational operations to be unfolded; they are irreducible by
default purely for elaborator performance. -/
attribute [local semireducible] Rat.mul Rat.add Rat.sub Rat.inv

/-- C6: the complexity-injection stage never changes the matrix of a
real run: by the time it executes, the completed DFS has visited every
recorded branch neighbour, so its unvisited-cell guard always fails;
in particular no carved spur ever reconnects the carved tree to itself
and the path cells form exactly the same (tree) configuration before
and after this stage, for every oracle stream and every input. -/
theorem C6_complexity_preserves_matrix (g : Nat → Nat) (f c : ℤ) (cpl : ℚ) :
    genCompMat g f c cpl = genDfsMat g f c := by
  rcases hst : genDfs g f c with _ | st
  · rw [genCompMat, genDfsMat, hst]
  · rw [genCompMat, genDfsMat, hst]
    dsimp only
    rw [genComp_eq g f c cpl st hst]

/-- C5 counterexample: with `complexity = 1` (branch factor `0.3`) and
a recorded candidate list of length 3, the loop of
`_agregar_complejidad` processes `int(3 * 0.3) = 0` candidates while
the claimed `round(3 * 0.3)` is `1`. -/
theorem C5_round_counterexample :
    processedCount (factorRamificacion 1) 3 = 0 ∧ specRoundedCount 1 3 = 1 ∧
      ¬ ((processedCount (factorRamificacion 1) 3 : ℤ) = specRoundedCount 1 3) := by
  have h1 : processedCount (factorRamificacion 1) 3 = 0 := by decide
  have h2 : specRoundedCount 1 3 = 1 := by
    rw [specRoundedCount, factorRamificacion]
    norm_num [round_eq]
  refine ⟨h1, h2, ?_⟩
  rw [h1, h2]
  decide

/-- C5 (amended): for every complexity in `[0, 1]` and every recorded
candidate list length, the complexity stage processes exactly
`int(len * branch_factor)` candidates — the floor (truncation), not the
rounding, of `len * branch_factor`, where
`branch_factor = min(0.3, complexity * 0.4)`. -/
theorem C5_processed_count (cpl : ℚ) (len : ℕ) (h0 : 0 ≤ cpl) (h1 : cpl ≤ 1) :
    (processedCount (factorRamificacion cpl) len : ℤ) =
      Int.floor ((len : ℚ) * factorRamificacion cpl) := by
  have hfnn : 0 ≤ factorRamificacion cpl :=
    le_min (by norm_num) (by positivity)
  have hfle : factorRamificacion cpl ≤ 1 :=
    le_trans (min_le_left _ _) (by norm_num)
  have hq : (0 : ℚ) ≤ (len : ℚ) * factorRamificacion cpl :=
    mul_nonneg (by positivity) hfnn
  have hpy : numBifurcaciones (factorRamificacion cpl) len =
      Int.floor ((len : ℚ) * factorRamificacion cpl) := by
    rw [numBifurcaciones, pyInt,
      Int.tdiv_eq_ediv (Rat.num_nonneg.2 hq) (by positivity), ← Rat.floor_def]
  have hle : Int.floor ((len : ℚ) * factorRamificacion cpl) ≤ (len : ℤ) := by
    have hmul : (len : ℚ) * factorRamificacion cpl ≤ (len : ℚ) := by
      calc (len : ℚ) * factorRamificacion cpl ≤ (len : ℚ) * 1 :=
            mul_le_mul_of_nonneg_left hfle (by positivity)
        _ = (len : ℚ) := mul_one _
    have := Int.floor_le_floor hmul
    simpa using this
  have hnn : 0 ≤ Int.floor ((len : ℚ) * factorRamificacion cpl) :=
    Int.floor_nonneg.2 hq
  rw [processedCount, hpy, min_eq_left hle]
  omega

/-- C5 amended witness: complexity `1/2`, five candidates, exactly one
is processed. -/
theorem C5_processed_count_witness :
    (processedCount (factorRamificacion (1 / 2)) 5 : ℤ) =
      Int.floor ((5 : ℚ) * factorRamificacion (1 / 2)) :=
  C5_processed_count (1 / 2) 5 (by norm_num) (by norm_num)

/-! Degenerate grids: with both dimensions at most 4 the DFS origin is
forced to `(1, 1)`, it has no neighbours, the cycle scan range is
empty, and the matrix entering endpoint selection is exactly the
all-wall grid with the single cell `(1, 1)` carved. -/

lemma genDfs_small (g : Nat → Nat) (f c : ℤ) (h3f : 3 ≤ f) (h4f : f ≤ 4)
    (h3c : 3 ≤ c) (h4c : c ≤ 4) :
    ∃ st : DState, genDfs g f c = .ok st ∧ st.m = mset allWalls (1, 1) false ∧
      st.vis = {((1 : ℤ), (1 : ℤ))} ∧ st.bifs = [] := by
  obtain ⟨o, ho, ho1, ho2, ho3, ho4, hok⟩ := genDfs_ok g f c h3f h3c
  have hoeq : o = ((1, 1) : Pos) := by
    rcases o with ⟨a, b⟩
    have ha := ho3 h4f
    have hb := ho4 h4c
    dsimp only at ha hb
    rw [ha, hb]
  rw [hoeq] at hok
  obtain ⟨n, hn⟩ : ∃ n, dfsFuel f c = n + 1 :=
    ⟨2 * ((f - 2).toNat * (c - 2).toNat) + 1, rfl⟩
  have hv : vecinosOf f c ({((1 : ℤ), (1 : ℤ))} : Finset Pos) (1, 1)
      (pyShuffle g 2 direcciones).1 = [] := by
    rw [vecinosOf_eq_nil]
    intro d hd hint
    exfalso
    have hdd : d ∈ direcciones := (pyShuffle_perm g 2 direcciones).mem_iff.1 hd
    obtain ⟨i1, i2, i3, i4⟩ := hint
    rcases dir_cases hdd with rfl | rfl | rfl | rfl
    all_goals dsimp only at i1 i2 i3 i4
    all_goals omega
  rw [hn] at hok
  rw [dfsLoopF_cons_nil g f c n
    ⟨mset allWalls (1, 1) false, direcciones, [(1, 1)], {(1, 1)}, [], 2⟩
    (1, 1) [] rfl hv] at hok
  rw [dfsLoopF_nil g f c n _ rfl] at hok
  exact ⟨_, hok, rfl, rfl, rfl⟩

lemma ciclosCells_nil (f c : ℤ) (h : f ≤ 4 ∨ c ≤ 4) : ciclosCells f c = [] := by
  rcases h with h | h
  · have : pyRangeStep2 2 (f - 2) = [] := by
      rw [pyRangeStep2]
      have : ((f - 2 - 2 + 1) / 2).toNat = 0 := by omega
      rw [this]
      rfl
    rw [ciclosCells, this]
    rfl
  · have hinner : pyRangeStep2 2 (c - 2) = [] := by
      rw [pyRangeStep2]
      have : ((c - 2 - 2 + 1) / 2).toNat = 0 := by omega
      rw [this]
      rfl
    rw [ciclosCells, hinner]
    simp

lemma crearCiclos_nil (uq : Nat → ℚ) (f c : ℤ) (m : Mat) (k : Nat) (prob : ℚ)
    (h : f ≤ 4 ∨ c ≤ 4) : crearCiclos uq f c m k prob = (m, k) := by
  rw [crearCiclos, ciclosCells_nil f c h]
  rfl

/-- On a degenerate grid the whole pre-repair pipeline reduces to
endpoint selection over the single carved cell. -/
lemma generarAux_small (g : Nat → Nat) (uq : Nat → ℚ) (f c : ℤ) (cpl dens : ℚ)
    (h3f : 3 ≤ f) (h4f : f ≤ 4) (h3c : 3 ≤ c) (h4c : c ≤ 4) :
    generarAux g uq f c cpl dens = establecer f c (mset allWalls (1, 1) false) := by
  obtain ⟨st, hok, hm, _, _⟩ := genDfs_small g f c h3f h4f h3c h4c
  rw [generarAux_eq g uq f c cpl dens st hok,
    crearCiclos_nil uq f c st.m (st.k + st.bifs.length) (dens * (15 / 100)) (Or.inl h4f),
    hm]

/-- C2 counterexample: on the smallest legal size 3×3 the only interior
cell is `(1, 1)`; endpoint selection forces the goal to
`(rows-2, cols-2) = (1, 1)` and start and goal coincide. -/
theorem C2_three_by_three_equal :
    genInicio (fun _ => 0) (fun _ => 0) 3 3 (1 / 2) (1 / 2) =
      genMeta (fun _ => 0) (fun _ => 0) 3 3 (1 / 2) (1 / 2) := by
  decide

/-- C2 (amended): the start and goal positions of a generated maze are
distinct for every pair of dimensions at least 3 except the single
degenerate size 3×3, where both resolve to the unique interior cell
`(1, 1)`. -/
theorem C2_endpoints_distinct (g : Nat → Nat) (uq : Nat → ℚ) (f c : ℤ)
    (cpl dens : ℚ) (h3f : 3 ≤ f) (h3c : 3 ≤ c) (hne : ¬ (f = 3 ∧ c = 3)) :
    genInicio g uq f c cpl dens ≠ genMeta g uq f c cpl dens := by
  by_cases h5 : 5 ≤ f ∨ 5 ≤ c
  · rcases hst : genDfs g f c with _ | st
    · exfalso
      have := (genDfs_error_iff g f c).1 hst
      omega
    · obtain ⟨a, b, ha, hb, hab⟩ := genDfs_two_cells g f c st hst h5
      obtain ⟨_, _, inv, hpila, _⟩ := genDfs_post g f c st hst
      obtain ⟨_, _, hmono3⟩ := crearCiclos_inv uq f c st.m
        (st.k + st.bifs.length) (dens * (15 / 100)) inv.conn inv.wallOut
      have hca : a ∈ caminosOf
          (crearCiclos uq f c st.m (st.k + st.bifs.length) (dens * (15 / 100))).1 f c :=
        mem_caminosOf.2 ⟨inv.visInt a ha, hmono3 a (inv.visPath a ha)⟩
      have hcb : b ∈ caminosOf
          (crearCiclos uq f c st.m (st.k + st.bifs.length) (dens * (15 / 100))).1 f c :=
        mem_caminosOf.2 ⟨inv.visInt b hb, hmono3 b (inv.visPath b hb)⟩
      obtain ⟨inicio, meta, hest, _, _, hmetane⟩ :=
        establecer_of_two f c _ a b h3f hca hcb hab
      have haux : generarAux g uq f c cpl dens =
          .ok ((crearCiclos uq f c st.m (st.k + st.bifs.length) (dens * (15 / 100))).1,
            inicio, meta) := by
        rw [generarAux_eq g uq f c cpl dens st hst]
        exact hest
      obtain ⟨_, hS, hT, _⟩ := gen_proj g uq f c cpl dens _ inicio meta haux
      rw [hS, hT]
      exact fun hc => hmetane hc.symm
  · push_neg at h5
    have hf : f = 3 ∨ f = 4 := by omega
    have hc : c = 3 ∨ c = 4 := by omega
    have haux := generarAux_small g uq f c cpl dens h3f (by omega) h3c (by omega)
    rcases hf with rfl | rfl
    · rcases hc with rfl | rfl
      · exact absurd ⟨rfl, rfl⟩ hne
      · have hcam : caminosOf (mset allWalls (1, 1) false) 3 4 = [(1, 1)] := by decide
        have hci : elegirInicio ([((1 : ℤ), (1 : ℤ))]) ((3 : ℤ) / 2) ((4 : ℤ) / 2) =
            [(1, 1)] := by decide
        have hm : elegirMeta ([((1 : ℤ), (1 : ℤ))]) 3 4 ((3 : ℤ) / 2) ((4 : ℤ) / 2)
            (pyMinBy (fun q => q.1 + q.2) (1, 1) []) = [] := by decide
        have hest := (establecer_cons hcam hci).1 hm
        have haux2 : generarAux g uq 3 4 cpl dens =
            .ok (mset (mset allWalls (1, 1) false) (3 - 2, 4 - 2) false,
              pyMinBy (fun q => q.1 + q.2) (1, 1) [], (3 - 2, 4 - 2)) := by
          rw [haux]
          exact hest
        obtain ⟨_, hS, hT, _⟩ := gen_proj g uq 3 4 cpl dens _ _ _ haux2
        rw [hS, hT]
        decide
    · rcases hc with rfl | rfl
      · have hcam : caminosOf (mset allWalls (1, 1) false) 4 3 = [(1, 1)] := by decide
        have hci : elegirInicio ([((1 : ℤ), (1 : ℤ))]) ((4 : ℤ) / 2) ((3 : ℤ) / 2) =
            [(1, 1)] := by decide
        have hm : elegirMeta ([((1 : ℤ), (1 : ℤ))]) 4 3 ((4 : ℤ) / 2) ((3 : ℤ) / 2)
            (pyMinBy (fun q => q.1 + q.2) (1, 1) []) = [] := by decide
        have hest := (establecer_cons hcam hci).1 hm
        have haux2 : generarAux g uq 4 3 cpl dens =
            .ok (mset (mset allWalls (1, 1) false) (4 - 2, 3 - 2) false,
              pyMinBy (fun q => q.1 + q.2) (1, 1) [], (4 - 2, 3 - 2)) := by
          rw [haux]
          exact hest
        obtain ⟨_, hS, hT, _⟩ := gen_proj g uq 4 3 cpl dens _ _ _ haux2
        rw [hS, hT]
        decide
      · have hcam : caminosOf (mset allWalls (1, 1) false) 4 4 = [(1, 1)] := by decide
        have hci : elegirInicio ([((1 : ℤ), (1 : ℤ))]) ((4 : ℤ) / 2) ((4 : ℤ) / 2) =
            [(1, 1)] := by decide
        have hm : elegirMeta ([((1 : ℤ), (1 : ℤ))]) 4 4 ((4 : ℤ) / 2) ((4 : ℤ) / 2)
            (pyMinBy (fun q => q.1 + q.2) (1, 1) []) = [] := by decide
        have hest := (establecer_cons hcam hci).1 hm
        have haux2 : generarAux g uq 4 4 cpl dens =
            .ok (mset (mset allWalls (1, 1) false) (4 - 2, 4 - 2) false,
              pyMinBy (fun q => q.1 + q.2) (1, 1) [], (4 - 2, 4 - 2)) := by
          rw [haux]
          exact hest
        obtain ⟨_, hS, hT, _⟩ := gen_proj g uq 4 4 cpl dens _ _ _ haux2
        rw [hS, hT]
        decide

/-- C2 amended witness: a concrete 3×4 run has distinct endpoints. -/
theorem C2_endpoints_distinct_witness :
    genInicio (fun _ => 0) (fun _ => 0) 3 4 (1 / 2) (1 / 2) ≠
      genMeta (fun _ => 0) (fun _ => 0) 3 4 (1 / 2) (1 / 2) :=
  C2_endpoints_distinct (fun _ => 0) (fun _ => 0) 3 4 (1 / 2) (1 / 2)
    (by decide) (by decide) (by decide)

lemma conn_of_all_bfs (m : Mat) (f c : ℤ) (s0 : Pos)
    (hs0b : InBoundsP f c s0) (hs0 : m s0 = false)
    (h : ∀ p ∈ allCells f c, m p = false → bfsReach m f c s0 p = true) :
    Conn m f c := by
  intro p q hpb hp hqb hq
  have hp2 : Reach m f c s0 p := bfsReach_iff.1 (h p (mem_allCells.2 hpb) hp)
  have hq2 : Reach m f c s0 q := bfsReach_iff.1 (h q (mem_allCells.2 hqb) hq)
  exact (reach_symm hs0b hs0 hp2).trans hq2

/-- C8 counterexample to the final clause: on a 4×4 grid the DFS can only
carve the single cell `(1, 1)`, the forced goal `(2, 2)` is carved isolated,
the pre-repair matrix leaves them disconnected, and the repair corridor of
`_crear_camino` IS actually carved: cell `(1, 2)` is a wall before the
repair stage and a path cell after it. -/
theorem C8_repair_is_carved :
    genPreMat (fun _ => 0) (fun _ => 0) 4 4 (1 / 2) (1 / 2) (1, 1) = false ∧
      genPreMat (fun _ => 0) (fun _ => 0) 4 4 (1 / 2) (1 / 2) (2, 2) = false ∧
      bfsReach (genPreMat (fun _ => 0) (fun _ => 0) 4 4 (1 / 2) (1 / 2)) 4 4
        (1, 1) (2, 2) = false ∧
      genPreMat (fun _ => 0) (fun _ => 0) 4 4 (1 / 2) (1 / 2) (1, 2) = true ∧
      genMat (fun _ => 0) (fun _ => 0) 4 4 (1 / 2) (1 / 2) (1, 2) = false := by
  decide

/-- C8 (amended): in every generated maze (dimensions at least 3, any
parameters, any streams) the entire set of path cells of the final matrix
is 4-directionally connected: any two path cells are joined by a path of
adjacent path cells. The corridor of the repair stage, however, can
actually be carved (see the 4×4 counterexample), and it is precisely what
restores this connectivity there. -/
theorem C8_paths_connected (g : Nat → Nat) (uq : Nat → ℚ) (f c : ℤ)
    (cpl dens : ℚ) (h3f : 3 ≤ f) (h3c : 3 ≤ c) :
    Conn (genMat g uq f c cpl dens) f c := by
  by_cases h5 : 5 ≤ f ∨ 5 ≤ c
  · rcases hst : genDfs g f c with _ | st
    · exfalso
      have := (genDfs_error_iff g f c).1 hst
      omega
    · obtain ⟨a, b, ha, hb, hab⟩ := genDfs_two_cells g f c st hst h5
      obtain ⟨_, _, inv, hpila, _⟩ := genDfs_post g f c st hst
      obtain ⟨hConn3, hOut3, hmono3⟩ := crearCiclos_inv uq f c st.m
        (st.k + st.bifs.length) (dens * (15 / 100)) inv.conn inv.wallOut
      have hca : a ∈ caminosOf
          (crearCiclos uq f c st.m (st.k + st.bifs.length) (dens * (15 / 100))).1 f c :=
        mem_caminosOf.2 ⟨inv.visInt a ha, hmono3 a (inv.visPath a ha)⟩
      have hcb : b ∈ caminosOf
          (crearCiclos uq f c st.m (st.k + st.bifs.length) (dens * (15 / 100))).1 f c :=
        mem_caminosOf.2 ⟨inv.visInt b hb, hmono3 b (inv.visPath b hb)⟩
      obtain ⟨inicio, meta, hest, hii, hmm, hmetane⟩ :=
        establecer_of_two f c _ a b h3f hca hcb hab
      have haux : generarAux g uq f c cpl dens =
          .ok ((crearCiclos uq f c st.m (st.k + st.bifs.length) (dens * (15 / 100))).1,
            inicio, meta) := by
        rw [generarAux_eq g uq f c cpl dens st hst]
        exact hest
      obtain ⟨hM, _, _, _⟩ := gen_proj g uq f c cpl dens _ inicio meta haux
      obtain ⟨hii1, hii2⟩ := mem_caminosOf.1 hii
      obtain ⟨hmm1, hmm2⟩ := mem_caminosOf.1 hmm
      rw [hM, garantizar_eq_of_conn f c _ inicio meta hConn3
        (interior_inBounds hii1) hii2 (interior_inBounds hmm1) hmm2]
      exact hConn3
  · push_neg at h5
    have hf : f = 3 ∨ f = 4 := by omega
    have hc : c = 3 ∨ c = 4 := by omega
    have haux := generarAux_small g uq f c cpl dens h3f (by omega) h3c (by omega)
    rcases hf with rfl | rfl <;> rcases hc with rfl | rfl
    · have hcam : caminosOf (mset allWalls (1, 1) false) 3 3 = [(1, 1)] := by decide
      have hci : elegirInicio ([((1 : ℤ), (1 : ℤ))]) ((3 : ℤ) / 2) ((3 : ℤ) / 2) =
          [(1, 1)] := by decide
      have hm : elegirMeta ([((1 : ℤ), (1 : ℤ))]) 3 3 ((3 : ℤ) / 2) ((3 : ℤ) / 2)
          (pyMinBy (fun q => q.1 + q.2) (1, 1) []) = [] := by decide
      have hest := (establecer_cons hcam hci).1 hm
      have haux2 : generarAux g uq 3 3 cpl dens =
          .ok (mset (mset allWalls (1, 1) false) (3 - 2, 3 - 2) false,
            pyMinBy (fun q => q.1 + q.2) (1, 1) [], (3 - 2, 3 - 2)) := by
        rw [haux]
        exact hest
      obtain ⟨hM, _, _, _⟩ := gen_proj g uq 3 3 cpl dens _ _ _ haux2
      rw [hM]
      exact conn_of_all_bfs _ 3 3 (1, 1) (by decide) (by decide) (by decide)
    · have hcam : caminosOf (mset allWalls (1, 1) false) 3 4 = [(1, 1)] := by decide
      have hci : elegirInicio ([((1 : ℤ), (1 : ℤ))]) ((3 : ℤ) / 2) ((4 : ℤ) / 2) =
          [(1, 1)] := by decide
      have hm : elegirMeta ([((1 : ℤ), (1 : ℤ))]) 3 4 ((3 : ℤ) / 2) ((4 : ℤ) / 2)
          (pyMinBy (fun q => q.1 + q.2) (1, 1) []) = [] := by decide
      have hest := (establecer_cons hcam hci).1 hm
      have haux2 : generarAux g uq 3 4 cpl dens =
          .ok (mset (mset allWalls (1, 1) false) (3 - 2, 4 - 2) false,
            pyMinBy (fun q => q.1 + q.2) (1, 1) [], (3 - 2, 4 - 2)) := by
        rw [haux]
        exact hest
      obtain ⟨hM, _, _, _⟩ := gen_proj g uq 3 4 cpl dens _ _ _ haux2
      rw [hM]
      exact conn_of_all_bfs _ 3 4 (1, 1) (by decide) (by decide) (by decide)
    · have hcam : caminosOf (mset allWalls (1, 1) false) 4 3 = [(1, 1)] := by decide
      have hci : elegirInicio ([((1 : ℤ), (1 : ℤ))]) ((4 : ℤ) / 2) ((3 : ℤ) / 2) =
          [(1, 1)] := by decide
      have hm : elegirMeta ([((1 : ℤ), (1 : ℤ))]) 4 3 ((4 : ℤ) / 2) ((3 : ℤ) / 2)
          (pyMinBy (fun q => q.1 + q.2) (1, 1) []) = [] := by decide
      have hest := (establecer_cons hcam hci).1 hm
      have haux2 : generarAux g uq 4 3 cpl dens =
          .ok (mset (mset allWalls (1, 1) false) (4 - 2, 3 - 2) false,
            pyMinBy (fun q => q.1 + q.2) (1, 1) [], (4 - 2, 3 - 2)) := by
        rw [haux]
        exact hest
      obtain ⟨hM, _, _, _⟩ := gen_proj g uq 4 3 cpl dens _ _ _ haux2
      rw [hM]
      exact conn_of_all_bfs _ 4 3 (1, 1) (by decide) (by decide) (by decide)
    · have hcam : caminosOf (mset allWalls (1, 1) false) 4 4 = [(1, 1)] := by decide
      have hci : elegirInicio ([((1 : ℤ), (1 : ℤ))]) ((4 : ℤ) / 2) ((4 : ℤ) / 2) =
          [(1, 1)] := by decide
      have hm : elegirMeta ([((1 : ℤ), (1 : ℤ))]) 4 4 ((4 : ℤ) / 2) ((4 : ℤ) / 2)
          (pyMinBy (fun q => q.1 + q.2) (1, 1) []) = [] := by decide
      have hest := (establecer_cons hcam hci).1 hm
      have haux2 : generarAux g uq 4 4 cpl dens =
          .ok (mset (mset allWalls (1, 1) false) (4 - 2, 4 - 2) false,
            pyMinBy (fun q => q.1 + q.2) (1, 1) [], (4 - 2, 4 - 2)) := by
        rw [haux]
        exact hest
      obtain ⟨hM, _, _, _⟩ := gen_proj g uq 4 4 cpl dens _ _ _ haux2
      rw [hM]
      exact conn_of_all_bfs _ 4 4 (1, 1) (by decide) (by decide) (by decide)

/-- C8 amended witness: the path cells of a concrete 5×5 run form one
4-connected component. -/
theorem C8_paths_connected_witness :
    Conn (genMat (fun _ => 0) (fun _ => 0) 5 5 (1 / 2) (1 / 2)) 5 5 :=
  C8_paths_connected (fun _ => 0) (fun _ => 0) 5 5 (1 / 2) (1 / 2)
    (by decide) (by decide)

/-- C7: for every generated maze with at least 10 rows and 10 columns the
start lies in the top or left half and the goal lies in the bottom or
right half (integer halves, Python floor division). -/
theorem C7_quadrant_bias (g : Nat → Nat) (uq : Nat → ℚ) (f c : ℤ)
    (cpl dens : ℚ) (hf : 10 ≤ f) (hc : 10 ≤ c) :
    ((genInicio g uq f c cpl dens).1 < f / 2 ∨
      (genInicio g uq f c cpl dens).2 < c / 2) ∧
    (f / 2 ≤ (genMeta g uq f c cpl dens).1 ∨
      c / 2 ≤ (genMeta g uq f c cpl dens).2) := by
  rcases hst : genDfs g f c with _ | st
  · exfalso
    have := (genDfs_error_iff g f c).1 hst
    omega
  · obtain ⟨h3f, h3c, inv, hpila, o, ho, hoi, ho1, ho2, _, _⟩ :=
      genDfs_post g f c st hst
    have hcomp := vis_complete inv hpila ho hoi ho1 ho2
    obtain ⟨j, hj1, hj2, hj3, hj4⟩ :
        ∃ j : ℤ, j % 2 = 1 ∧ 1 ≤ j ∧ j < c - 1 ∧ c / 2 ≤ j := by
      refine ⟨if c % 2 = 0 then c - 3 else c - 2, ?_⟩
      split_ifs <;> omega
    have h11 : ((1 : ℤ), (1 : ℤ)) ∈ st.vis := by
      refine hcomp (1, 1) ?_ (by decide) (by decide)
      unfold InteriorP
      dsimp only
      omega
    have h1j : ((1 : ℤ), j) ∈ st.vis := by
      refine hcomp (1, j) ?_ (by dsimp only; decide) hj1
      unfold InteriorP
      dsimp only
      omega
    obtain ⟨hConn3, hOut3, hmono3⟩ := crearCiclos_inv uq f c st.m
      (st.k + st.bifs.length) (dens * (15 / 100)) inv.conn inv.wallOut
    have hc11 : ((1 : ℤ), (1 : ℤ)) ∈ caminosOf
        (crearCiclos uq f c st.m (st.k + st.bifs.length) (dens * (15 / 100))).1 f c :=
      mem_caminosOf.2 ⟨inv.visInt _ h11, hmono3 _ (inv.visPath _ h11)⟩
    have hc1j : ((1 : ℤ), j) ∈ caminosOf
        (crearCiclos uq f c st.m (st.k + st.bifs.length) (dens * (15 / 100))).1 f c :=
      mem_caminosOf.2 ⟨inv.visInt _ h1j, hmono3 _ (inv.visPath _ h1j)⟩
    rcases hcam : caminosOf
        (crearCiclos uq f c st.m (st.k + st.bifs.length) (dens * (15 / 100))).1 f c
      with _ | ⟨p0, ps⟩
    · rw [hcam] at hc11
      cases hc11
    · rcases hci : elegirInicio (p0 :: ps) (f / 2) (c / 2) with _ | ⟨x, xs⟩
      · exact absurd hci (elegirInicio_ne_nil (List.cons_ne_nil p0 ps))
      · have himem : pyMinBy (fun q => q.1 + q.2) x xs ∈
            elegirInicio (p0 :: ps) (f / 2) (c / 2) := by
          rw [hci]
          exact pyMinBy_mem _ x xs
        have hileft : (pyMinBy (fun q => q.1 + q.2) x xs).2 < c / 2 :=
          @elegirInicio_left (p0 :: ps) (f / 2) (c / 2)
            ⟨(1, 1), hcam ▸ hc11, by dsimp only; omega⟩ _ himem
        have hwne : ((1 : ℤ), j) ≠ pyMinBy (fun q => q.1 + q.2) x xs := by
          intro h
          rw [← h] at hileft
          dsimp only at hileft
          omega
        rcases hmel : elegirMeta (p0 :: ps) f c (f / 2) (c / 2)
            (pyMinBy (fun q => q.1 + q.2) x xs) with _ | ⟨y, ys⟩
        · exact absurd hmel
            (elegirMeta_ne_nil_of_other (hcam ▸ hc1j) hwne)
        · have hmmem : pyMaxBy (fun q => (f - q.1 - 1) + (c - q.2 - 1)) y ys ∈
              elegirMeta (p0 :: ps) f c (f / 2) (c / 2)
                (pyMinBy (fun q => q.1 + q.2) x xs) := by
            rw [hmel]
            exact pyMaxBy_mem _ y ys
          have hmright : c / 2 ≤
              (pyMaxBy (fun q => (f - q.1 - 1) + (c - q.2 - 1)) y ys).2 :=
            @elegirMeta_right (p0 :: ps) f c (f / 2) (c / 2)
              (pyMinBy (fun q => q.1 + q.2) x xs) (1, j)
              (hcam ▸ hc1j) hj4 hwne _ hmmem
          have hest := (establecer_cons hcam hci).2 y ys hmel
          have haux : generarAux g uq f c cpl dens = .ok
              (mset (mset (crearCiclos uq f c st.m (st.k + st.bifs.length)
                  (dens * (15 / 100))).1
                  (pyMinBy (fun q => q.1 + q.2) x xs) false)
                (pyMaxBy (fun q => (f - q.1 - 1) + (c - q.2 - 1)) y ys) false,
              pyMinBy (fun q => q.1 + q.2) x xs,
              pyMaxBy (fun q => (f - q.1 - 1) + (c - q.2 - 1)) y ys) := by
            rw [generarAux_eq g uq f c cpl dens st hst]
            exact hest
          obtain ⟨_, hS, hT, _⟩ := gen_proj g uq f c cpl dens _ _ _ haux
          rw [hS, hT]
          exact ⟨Or.inr hileft, Or.inr hmright⟩

/-- C7 witness: a concrete 11×10 run has its start in the left half and
its goal in the right half. -/
theorem C7_quadrant_bias_witness :
    ((genInicio (fun _ => 0) (fun _ => 0) 11 10 (1 / 2) (1 / 2)).1 < 11 / 2 ∨
      (genInicio (fun _ => 0) (fun _ => 0) 11 10 (1 / 2) (1 / 2)).2 < 10 / 2) ∧
    (11 / 2 ≤ (genMeta (fun _ => 0) (fun _ => 0) 11 10 (1 / 2) (1 / 2)).1 ∨
      10 / 2 ≤ (genMeta (fun _ => 0) (fun _ => 0) 11 10 (1 / 2) (1 / 2)).2) :=
  C7_quadrant_bias (fun _ => 0) (fun _ => 0) 11 10 (1 / 2) (1 / 2)
    (by decide) (by decide)

lemma filter_false_length_mono (m1 m2 : Mat) (h : ∀ x, m1 x = false → m2 x = false) :
    ∀ l : List Pos, (l.filter fun p => m1 p = false).length ≤
      (l.filter fun p => m2 p = false).length := by
  intro l
  induction l with
  | nil => simp
  | cons a t ih =>
    by_cases ha : m1 a = false
    · have hb := h a ha
      rw [List.filter_cons_of_pos (by simpa using ha),
        List.filter_cons_of_pos (by simpa using hb)]
      simpa using Nat.succ_le_succ ih
    · rw [List.filter_cons_of_neg (by simpa using ha)]
      by_cases hb : m2 a = false
      · rw [List.filter_cons_of_pos (by simpa using hb)]
        exact le_trans ih (Nat.le_succ _)
      · rw [List.filter_cons_of_neg (by simpa using hb)]
        exact ih

lemma pathCount_mono (f c : ℤ) {m1 m2 : Mat}
    (h : ∀ x, m1 x = false → m2 x = false) :
    pathCount m1 f c ≤ pathCount m2 f c :=
  filter_false_length_mono m1 m2 h (allCells f c)

lemma ciclos_align (uq : Nat → ℚ) (q1 q2 : ℚ) (hq : q1 ≤ q2) (m : Mat) :
    ∀ (l : List Pos) (n1 n2 : Mat) (k : Nat),
      l.Nodup →
      (∀ x ∈ l, x.1 % 2 = 0 ∧ x.2 % 2 = 0) →
      (∀ x : Pos, x ∈ l ∨ x.1 % 2 = 1 ∨ x.2 % 2 = 1 → n1 x = m x) →
      (∀ x : Pos, x ∈ l ∨ x.1 % 2 = 1 ∨ x.2 % 2 = 1 → n2 x = m x) →
      (∀ x, n1 x = false → n2 x = false) →
      (l.foldl (ciclosPaso uq q1) (n1, k)).2 =
          (l.foldl (ciclosPaso uq q2) (n2, k)).2 ∧
        ∀ x, (l.foldl (ciclosPaso uq q1) (n1, k)).1 x = false →
          (l.foldl (ciclosPaso uq q2) (n2, k)).1 x = false := by
  intro l
  induction l with
  | nil =>
    intro n1 n2 k _ _ _ _ hsub
    exact ⟨rfl, hsub⟩
  | cons p t ih =>
    intro n1 n2 k hnd hev ha1 ha2 hsub
    obtain ⟨hpt, hndt⟩ := List.nodup_cons.1 hnd
    obtain ⟨hpe1, hpe2⟩ := hev p (List.mem_cons_self p t)
    have htailev : ∀ x ∈ t, x.1 % 2 = 0 ∧ x.2 % 2 = 0 :=
      fun x hx => hev x (List.mem_cons_of_mem p hx)
    have hshift : ∀ x : Pos, x ∈ t ∨ x.1 % 2 = 1 ∨ x.2 % 2 = 1 →
        x ∈ p :: t ∨ x.1 % 2 = 1 ∨ x.2 % 2 = 1 := by
      intro x hx
      rcases hx with hx | hx
      · exact Or.inl (List.mem_cons_of_mem p hx)
      · exact Or.inr hx
    have htail : ∀ x : Pos, x ∈ t ∨ x.1 % 2 = 1 ∨ x.2 % 2 = 1 → x ≠ p := by
      intro x hx heq
      rcases hx with hx | hx | hx
      · exact hpt (heq ▸ hx)
      · subst heq
        omega
      · subst heq
        omega
    have hp1 : n1 p = m p := ha1 p (Or.inl (List.mem_cons_self p t))
    have hp2 : n2 p = m p := ha2 p (Or.inl (List.mem_cons_self p t))
    have hup1 : n1 (p.1 - 1, p.2) = m (p.1 - 1, p.2) :=
      ha1 _ (Or.inr (Or.inl (by dsimp only; omega)))
    have hdn1 : n1 (p.1 + 1, p.2) = m (p.1 + 1, p.2) :=
      ha1 _ (Or.inr (Or.inl (by dsimp only; omega)))
    have hlf1 : n1 (p.1, p.2 - 1) = m (p.1, p.2 - 1) :=
      ha1 _ (Or.inr (Or.inr (by dsimp only; omega)))
    have hrt1 : n1 (p.1, p.2 + 1) = m (p.1, p.2 + 1) :=
      ha1 _ (Or.inr (Or.inr (by dsimp only; omega)))
    have hup2 : n2 (p.1 - 1, p.2) = m (p.1 - 1, p.2) :=
      ha2 _ (Or.inr (Or.inl (by dsimp only; omega)))
    have hdn2 : n2 (p.1 + 1, p.2) = m (p.1 + 1, p.2) :=
      ha2 _ (Or.inr (Or.inl (by dsimp only; omega)))
    have hlf2 : n2 (p.1, p.2 - 1) = m (p.1, p.2 - 1) :=
      ha2 _ (Or.inr (Or.inr (by dsimp only; omega)))
    have hrt2 : n2 (p.1, p.2 + 1) = m (p.1, p.2 + 1) :=
      ha2 _ (Or.inr (Or.inr (by dsimp only; omega)))
    rw [List.foldl_cons, List.foldl_cons]
    by_cases hw : m p = true
    · by_cases hQ : (m (p.1 - 1, p.2) = false ∧ m (p.1 + 1, p.2) = false) ∨
          (m (p.1, p.2 - 1) = false ∧ m (p.1, p.2 + 1) = false)
      · by_cases hu1 : uq k < q1
        · have hu2 : uq k < q2 := lt_of_lt_of_le hu1 hq
          have e1 : ciclosPaso uq q1 (n1, k) p = (mset n1 p false, k + 1) := by
            unfold ciclosPaso
            dsimp only
            rw [hp1, hup1, hdn1, hlf1, hrt1, if_pos hw, if_pos hQ, if_pos hu1]
          have e2 : ciclosPaso uq q2 (n2, k) p = (mset n2 p false, k + 1) := by
            unfold ciclosPaso
            dsimp only
            rw [hp2, hup2, hdn2, hlf2, hrt2, if_pos hw, if_pos hQ, if_pos hu2]
          rw [e1, e2]
          refine ih (mset n1 p false) (mset n2 p false) (k + 1) hndt htailev
            ?_ ?_ ?_
          · intro x hx
            rw [mset_apply_ne n1 p x false (htail x hx)]
            exact ha1 x (hshift x hx)
          · intro x hx
            rw [mset_apply_ne n2 p x false (htail x hx)]
            exact ha2 x (hshift x hx)
          · intro x hx
            rcases (mset_false_eq_false_iff n1 p x).1 hx with h | h
            · exact (mset_false_eq_false_iff n2 p x).2 (Or.inl h)
            · exact (mset_false_eq_false_iff n2 p x).2 (Or.inr (hsub x h))
        · have e1 : ciclosPaso uq q1 (n1, k) p = (n1, k + 1) := by
            unfold ciclosPaso
            dsimp only
            rw [hp1, hup1, hdn1, hlf1, hrt1, if_pos hw, if_pos hQ, if_neg hu1]
          by_cases hu2 : uq k < q2
          · have e2 : ciclosPaso uq q2 (n2, k) p = (mset n2 p false, k + 1) := by
              unfold ciclosPaso
              dsimp only
              rw [hp2, hup2, hdn2, hlf2, hrt2, if_pos hw, if_pos hQ, if_pos hu2]
            rw [e1, e2]
            refine ih n1 (mset n2 p false) (k + 1) hndt htailev ?_ ?_ ?_
            · intro x hx
              exact ha1 x (hshift x hx)
            · intro x hx
              rw [mset_apply_ne n2 p x false (htail x hx)]
              exact ha2 x (hshift x hx)
            · intro x hx
              exact (mset_false_eq_false_iff n2 p x).2 (Or.inr (hsub x hx))
          · have e2 : ciclosPaso uq q2 (n2, k) p = (n2, k + 1) := by
              unfold ciclosPaso
              dsimp only
              rw [hp2, hup2, hdn2, hlf2, hrt2, if_pos hw, if_pos hQ, if_neg hu2]
            rw [e1, e2]
            refine ih n1 n2 (k + 1) hndt htailev ?_ ?_ hsub
            · intro x hx
              exact ha1 x (hshift x hx)
            · intro x hx
              exact ha2 x (hshift x hx)
      · have e1 : ciclosPaso uq q1 (n1, k) p = (n1, k) := by
          unfold ciclosPaso
          dsimp only
          rw [hp1, hup1, hdn1, hlf1, hrt1, if_pos hw, if_neg hQ]
        have e2 : ciclosPaso uq q2 (n2, k) p = (n2, k) := by
          unfold ciclosPaso
          dsimp only
          rw [hp2, hup2, hdn2, hlf2, hrt2, if_pos hw, if_neg hQ]
        rw [e1, e2]
        refine ih n1 n2 k hndt htailev ?_ ?_ hsub
        · intro x hx
          exact ha1 x (hshift x hx)
        · intro x hx
          exact ha2 x (hshift x hx)
    · have e1 : ciclosPaso uq q1 (n1, k) p = (n1, k) := by
        unfold ciclosPaso
        dsimp only
        rw [hp1, if_neg hw]
      have e2 : ciclosPaso uq q2 (n2, k) p = (n2, k) := by
        unfold ciclosPaso
        dsimp only
        rw [hp2, if_neg hw]
      rw [e1, e2]
      refine ih n1 n2 k hndt htailev ?_ ?_ hsub
      · intro x hx
        exact ha1 x (hshift x hx)
      · intro x hx
        exact ha2 x (hshift x hx)

lemma genMat_eq_ciclos (g : Nat → Nat) (uq : Nat → ℚ) (f c : ℤ) (cpl dens : ℚ)
    (st : DState) (hst : genDfs g f c = .ok st) (h5 : 5 ≤ f ∨ 5 ≤ c) :
    genMat g uq f c cpl dens =
      (crearCiclos uq f c st.m (st.k + st.bifs.length) (dens * (15 / 100))).1 := by
  obtain ⟨h3f, h3c, inv, hpila, _⟩ := genDfs_post g f c st hst
  obtain ⟨a, b, ha, hb, hab⟩ := genDfs_two_cells g f c st hst h5
  obtain ⟨hConn3, hOut3, hmono3⟩ := crearCiclos_inv uq f c st.m
    (st.k + st.bifs.length) (dens * (15 / 100)) inv.conn inv.wallOut
  have hca : a ∈ caminosOf
      (crearCiclos uq f c st.m (st.k + st.bifs.length) (dens * (15 / 100))).1 f c :=
    mem_caminosOf.2 ⟨inv.visInt a ha, hmono3 a (inv.visPath a ha)⟩
  have hcb : b ∈ caminosOf
      (crearCiclos uq f c st.m (st.k + st.bifs.length) (dens * (15 / 100))).1 f c :=
    mem_caminosOf.2 ⟨inv.visInt b hb, hmono3 b (inv.visPath b hb)⟩
  obtain ⟨inicio, meta, hest, hii, hmm, _⟩ :=
    establecer_of_two f c _ a b h3f hca hcb hab
  have haux : generarAux g uq f c cpl dens =
      .ok ((crearCiclos uq f c st.m (st.k + st.bifs.length) (dens * (15 / 100))).1,
        inicio, meta) := by
    rw [generarAux_eq g uq f c cpl dens st hst]
    exact hest
  obtain ⟨hM, _, _, _⟩ := gen_proj g uq f c cpl dens _ inicio meta haux
  obtain ⟨hii1, hii2⟩ := mem_caminosOf.1 hii
  obtain ⟨hmm1, hmm2⟩ := mem_caminosOf.1 hmm
  rw [hM, garantizar_eq_of_conn f c _ inicio meta hConn3
    (interior_inBounds hii1) hii2 (interior_inBounds hmm1) hmm2]

/-- C4: with dimensions, complexity and both random streams held fixed,
the number of path cells of the generated maze is monotonically
non-decreasing in the density parameter: the wall-removal pass of
`_crear_ciclos` consumes draws at exactly the same qualifying cells for
both densities and knocks down a superset of walls at the higher one,
and no later stage removes path cells. -/
theorem C4_density_monotone (g : Nat → Nat) (uq : Nat → ℚ) (f c : ℤ)
    (cpl d1 d2 : ℚ) (h0 : 0 ≤ d1) (h12 : d1 ≤ d2) (h1 : d2 ≤ 1) :
    pathCount (genMat g uq f c cpl d1) f c ≤
      pathCount (genMat g uq f c cpl d2) f c := by
  by_cases h5 : 5 ≤ f ∨ 5 ≤ c
  · rcases hst : genDfs g f c with _ | st
    · have e1 : genMat g uq f c cpl d1 = allWalls := by
        rw [genMat, generar, generarAux, hst]
      have e2 : genMat g uq f c cpl d2 = allWalls := by
        rw [genMat, generar, generarAux, hst]
      rw [e1, e2]
    · have e1 := genMat_eq_ciclos g uq f c cpl d1 st hst h5
      have e2 := genMat_eq_ciclos g uq f c cpl d2 st hst h5
      have hq : d1 * (15 / 100) ≤ d2 * (15 / 100) :=
        mul_le_mul_of_nonneg_right h12 (by norm_num)
      have hev : ∀ x ∈ ciclosCells f c, x.1 % 2 = 0 ∧ x.2 % 2 = 0 := by
        intro x hx
        obtain ⟨_, _, hx3, _, _, hx6⟩ := mem_ciclosCells.1 hx
        exact ⟨hx3, hx6⟩
      obtain ⟨_, hM⟩ := ciclos_align uq (d1 * (15 / 100)) (d2 * (15 / 100)) hq
        st.m (ciclosCells f c) st.m st.m (st.k + st.bifs.length)
        (ciclosCells_nodup f c) hev (fun x _ => rfl) (fun x _ => rfl)
        (fun x h => h)
      rw [e1, e2]
      exact pathCount_mono f c hM
  · push_neg at h5
    by_cases h3 : 3 ≤ f ∧ 3 ≤ c
    · have e1 := generarAux_small g uq f c cpl d1 h3.1 (by omega) h3.2 (by omega)
      have e2 := generarAux_small g uq f c cpl d2 h3.1 (by omega) h3.2 (by omega)
      have e : genMat g uq f c cpl d1 = genMat g uq f c cpl d2 := by
        rw [genMat, genMat, generar, generar, e1, e2]
      rw [e]
    · have herr : genDfs g f c = .error () := (genDfs_error_iff g f c).2 (by omega)
      have e1 : genMat g uq f c cpl d1 = allWalls := by
        rw [genMat, generar, generarAux, herr]
      have e2 : genMat g uq f c cpl d2 = allWalls := by
        rw [genMat, generar, generarAux, herr]
      rw [e1, e2]

/-- C4 witness: a concrete 5×5 run at densities 1/4 and 3/4. -/
theorem C4_density_monotone_witness :
    pathCount (genMat (fun _ => 0) (fun _ => 0) 5 5 (1 / 2) (1 / 4)) 5 5 ≤
      pathCount (genMat (fun _ => 0) (fun _ => 0) 5 5 (1 / 2) (3 / 4)) 5 5 :=
  C4_density_monotone (fun _ => 0) (fun _ => 0) 5 5 (1 / 2) (1 / 4) (3 / 4)
    (by decide) (by decide) (by decide)
